import Mathlib

/-!
Forward-mode Jacobian evaluator of wave_geometry.

A shallow embedding of `core/functions/JacobianEvaluator.hpp` and of the vector operator
library of `geometry/base/VectorBase.hpp`.

C++ expression templates are embedded as follows.

* An expression *type* (`Sum<Translation, Translation>`, ...) is a term of `Ty`.
* An expression *object* of type `D` is a term of `Expr lib D`; every node carries the
  address of the object (`addr`), which is what storage identity compares.
* Template specialisation on `(Derived, Target)` is the function
  `JacobianEvaluator.construct`, which returns `none` when no specialisation of
  `JacobianEvaluator<Derived, Target>` is selected (the primary template is only declared,
  so such a program is rejected by the compiler).
* `boost::optional<Jacobian>` is `Option (Matrix ..)`, `boost::none` is `none`.
* `jacobian_t<Derived, Target>` is the matrix type with `TangentSize Derived` rows and
  `TangentSize Target` columns over the scalar field `K`.
-/

namespace wave

/-- Leaf expression types: a scalar leaf, or a vector leaf with `Size` coefficients. -/
inductive LeafTy where
  | scalar : LeafTy
  | vector (Size : Nat) : LeafTy
deriving DecidableEq

/-- Tags of the unary operators of `VectorBase.hpp`. -/
inductive UnaryTag where
  | Minus
  | SquaredNorm
  | Norm
deriving DecidableEq

/-- Tags of the binary operators of `VectorBase.hpp`. -/
inductive BinaryTag where
  | Sum
  | Scale
  | ScaleR
  | ScaleDiv
deriving DecidableEq

/-- Expression types: a leaf type, `Tag<Rhs>` or `Tag<Lhs, Rhs>`. -/
inductive Ty where
  | leaf (l : LeafTy) : Ty
  | unary (tag : UnaryTag) (RhsDerived : Ty) : Ty
  | binary (tag : BinaryTag) (LhsDerived RhsDerived : Ty) : Ty
deriving DecidableEq

/-- The trait `is_leaf_or_scalar<Derived>`. -/
def is_leaf_or_scalar : Ty → Bool
  | .leaf _ => true
  | _ => false

/-- The trait `is_unary_expression<Derived>`. -/
def is_unary_expression : Ty → Bool
  | .unary _ _ => true
  | _ => false

/-- The trait `is_binary_expression<Derived>`. -/
def is_binary_expression : Ty → Bool
  | .binary _ _ _ => true
  | _ => false

/-- Modelled from the spec: the trait `contains_same_type<Derived, Target>`, whose definition
is not in the two headers.  Leaf: `L == T`; unary: `contains(R, T)`; binary:
`contains(L, T) ∨ contains(R, T)`. -/
def contains_same_type : Ty → Ty → Bool
  | .leaf l, T => decide (Ty.leaf l = T)
  | .unary _ R, T => contains_same_type R T
  | .binary _ L R, T => contains_same_type L T || contains_same_type R T

/-- The operator library consumed by the evaluators: the hooks that
`JacobianEvaluator.hpp` calls but does not define.

* `Val D` is the plain value type of an expression of type `D`;
* `TangentSize D` gives the shape of `jacobian_t<D, T>`;
* `evalImpl` is the forward evaluation rule of each operator;
* `jacobianImpl`, `leftJacobianImpl`, `rightJacobianImpl` are the local Jacobians,
  called with the node value and the operand values. -/
structure Library (K : Type) where
  Val : Ty → Type
  TangentSize : Ty → Nat
  evalImpl₁ : (tag : UnaryTag) → (R : Ty) → Val R → Val (.unary tag R)
  evalImpl₂ : (tag : BinaryTag) → (L R : Ty) → Val L → Val R → Val (.binary tag L R)
  jacobianImpl : (tag : UnaryTag) → (R : Ty) → Val (.unary tag R) → Val R →
    Matrix (Fin (TangentSize (.unary tag R))) (Fin (TangentSize R)) K
  leftJacobianImpl : (tag : BinaryTag) → (L R : Ty) → Val (.binary tag L R) → Val L → Val R →
    Matrix (Fin (TangentSize (.binary tag L R))) (Fin (TangentSize L)) K
  rightJacobianImpl : (tag : BinaryTag) → (L R : Ty) → Val (.binary tag L R) → Val L → Val R →
    Matrix (Fin (TangentSize (.binary tag L R))) (Fin (TangentSize R)) K

variable {K : Type}

/-- The type `jacobian_t<Derived, Target>`. -/
abbrev jacobian_t (lib : Library K) (Derived Target : Ty) : Type :=
  Matrix (Fin (lib.TangentSize Derived)) (Fin (lib.TangentSize Target)) K

/-- Expression objects.  `addr` is the address of the object: two references denote the
same storage exactly when the addresses agree.  Operands are held by reference, so one leaf
object may occur at several positions of a tree with the same address. -/
inductive Expr (lib : Library K) : Ty → Type where
  | leaf (addr : Nat) (l : LeafTy) (value : lib.Val (.leaf l)) : Expr lib (.leaf l)
  | unary (addr : Nat) (tag : UnaryTag) {R : Ty} (rhs : Expr lib R) : Expr lib (.unary tag R)
  | binary (addr : Nat) (tag : BinaryTag) {L R : Ty} (lhs : Expr lib L) (rhs : Expr lib R) :
      Expr lib (.binary tag L R)

/-- Address of an expression object. -/
def Expr.addr {lib : Library K} : {D : Ty} → Expr lib D → Nat
  | _, .leaf a _ _ => a
  | _, .unary a _ _ => a
  | _, .binary a _ _ _ => a

/-- Addresses of all the nodes of an expression tree. -/
def Expr.addrs {lib : Library K} : {D : Ty} → Expr lib D → List Nat
  | _, .leaf a _ _ => [a]
  | _, .unary a _ rhs => a :: rhs.addrs
  | _, .binary a _ lhs rhs => a :: (lhs.addrs ++ rhs.addrs)

/-- Modelled from the spec: `isSame`, which is not in the two headers.  "Same target" is
decided by storage identity (address equality), not by value equality.  It is only ever
called on two objects of one type. -/
def isSame {lib : Library K} {D T : Ty} (a : Expr lib D) (b : Expr lib T) : Bool :=
  decide (a.addr = b.addr)

/-- Modelled from the spec: the value evaluator `Evaluator<Derived>`, which is not in the two
headers.  A tree parallel to the expression, each node holding a reference to its expression
(`expr`), its children evaluators (`lhs_eval`, `rhs_eval`) and the cached value. -/
inductive Evaluator (lib : Library K) : Ty → Type where
  | leaf {l : LeafTy} (expr : Expr lib (.leaf l)) (result : lib.Val (.leaf l)) :
      Evaluator lib (.leaf l)
  | unary {tag : UnaryTag} {R : Ty} (expr : Expr lib (.unary tag R))
      (rhs_eval : Evaluator lib R) (result : lib.Val (.unary tag R)) :
      Evaluator lib (.unary tag R)
  | binary {tag : BinaryTag} {L R : Ty} (expr : Expr lib (.binary tag L R))
      (lhs_eval : Evaluator lib L) (rhs_eval : Evaluator lib R)
      (result : lib.Val (.binary tag L R)) : Evaluator lib (.binary tag L R)

/-- The member `evaluator.expr`. -/
def Evaluator.expr {lib : Library K} : {D : Ty} → Evaluator lib D → Expr lib D
  | _, .leaf e _ => e
  | _, .unary e _ _ => e
  | _, .binary e _ _ _ => e

/-- The call `evaluator()`: the cached value of the node. -/
def Evaluator.value {lib : Library K} : {D : Ty} → Evaluator lib D → lib.Val D
  | _, .leaf _ v => v
  | _, .unary _ _ v => v
  | _, .binary _ _ _ v => v

/-- The member `evaluator.rhs_eval` of a unary node. -/
def Evaluator.rhs_eval₁ {lib : Library K} {tag : UnaryTag} {R : Ty} :
    Evaluator lib (.unary tag R) → Evaluator lib R
  | .unary _ r _ => r

/-- The member `evaluator.lhs_eval` of a binary node. -/
def Evaluator.lhs_eval {lib : Library K} {tag : BinaryTag} {L R : Ty} :
    Evaluator lib (.binary tag L R) → Evaluator lib L
  | .binary _ l _ _ => l

/-- The member `evaluator.rhs_eval` of a binary node. -/
def Evaluator.rhs_eval {lib : Library K} {tag : BinaryTag} {L R : Ty} :
    Evaluator lib (.binary tag L R) → Evaluator lib R
  | .binary _ _ r _ => r

/-- Modelled from the spec: `prepareEvaluatorTo`, which is not in the two headers.  Children
are constructed first, then the operator's evaluation rule is invoked on their values, once
per node. -/
def prepareEvaluatorTo {lib : Library K} : {D : Ty} → Expr lib D → Evaluator lib D
  | _, .leaf a l v => .leaf (.leaf a l v) v
  | _, .unary a tag rhs =>
      let rhs_eval := prepareEvaluatorTo rhs
      .unary (.unary a tag rhs) rhs_eval (lib.evalImpl₁ tag _ rhs_eval.value)
  | _, .binary a tag lhs rhs =>
      let lhs_eval := prepareEvaluatorTo lhs
      let rhs_eval := prepareEvaluatorTo rhs
      .binary (.binary a tag lhs rhs) lhs_eval rhs_eval
        (lib.evalImpl₂ tag _ _ lhs_eval.value rhs_eval.value)

/-- Modelled from the spec: `prepareOutput`, which is not in the two headers: the root's
prepared output. -/
def prepareOutput {lib : Library K} {D : Ty} (v_eval : Evaluator lib D) : lib.Val D :=
  v_eval.value

/-- Modelled from the spec: the driver `evaluate(expr)`: build a value evaluator, return the
root's prepared output. -/
def evaluate {lib : Library K} {D : Ty} (expr : Expr lib D) : lib.Val D :=
  prepareOutput (prepareEvaluatorTo expr)

/-- The function `getWrtTarget`: a passthrough. -/
def getWrtTarget {lib : Library K} {T : Ty} (target : Expr lib T) : Expr lib T :=
  target

/-- The specialisations of `JacobianEvaluator<Derived, Target>`, with their members.

* `self`: `JacobianEvaluator<Derived, Derived>`, caching `is_same`;
* `leaf`: leaf expression of different type (no members);
* `unary`: unary expression of different type;
* `binaryBoth`: binary expression where both sides might contain the target;
* `binaryLhs`: binary expression where only lhs might contain the target;
* `binaryRhs`: binary expression where only rhs might contain the target. -/
inductive JacobianEvaluator (lib : Library K) : Ty → Ty → Type where
  | self {D : Ty} (evaluator : Evaluator lib D) (is_same : Bool) : JacobianEvaluator lib D D
  | leaf {l : LeafTy} {T : Ty} : JacobianEvaluator lib (.leaf l) T
  | unary {tag : UnaryTag} {R T : Ty} (evaluator : Evaluator lib (.unary tag R))
      (rhs_eval : JacobianEvaluator lib R T) : JacobianEvaluator lib (.unary tag R) T
  | binaryBoth {tag : BinaryTag} {L R T : Ty} (evaluator : Evaluator lib (.binary tag L R))
      (lhs_eval : JacobianEvaluator lib L T) (rhs_eval : JacobianEvaluator lib R T) :
      JacobianEvaluator lib (.binary tag L R) T
  | binaryLhs {tag : BinaryTag} {L R T : Ty} (evaluator : Evaluator lib (.binary tag L R))
      (lhs_eval : JacobianEvaluator lib L T) : JacobianEvaluator lib (.binary tag L R) T
  | binaryRhs {tag : BinaryTag} {L R T : Ty} (evaluator : Evaluator lib (.binary tag L R))
      (rhs_eval : JacobianEvaluator lib R T) : JacobianEvaluator lib (.binary tag L R) T

/-- Constructors of the specialisations, with the selection of the specialisation for
`(Derived, Target)`.  `none`: no specialisation is selected for this node or for a member
evaluator, so `JacobianEvaluator<Derived, Target>` is an incomplete type. -/
def JacobianEvaluator.construct {lib : Library K} :
    {D : Ty} → (T : Ty) → Evaluator lib D → Expr lib T → Option (JacobianEvaluator lib D T)
  | .leaf l, T, evaluator, target =>
      if h : Ty.leaf l = T then
        some (h ▸ JacobianEvaluator.self evaluator (isSame evaluator.expr target))
      else
        some JacobianEvaluator.leaf
  | .unary tag R, T, evaluator, target =>
      if h : Ty.unary tag R = T then
        some (h ▸ JacobianEvaluator.self evaluator (isSame evaluator.expr target))
      else
        match JacobianEvaluator.construct T evaluator.rhs_eval₁ target with
        | some rhs_eval => some (JacobianEvaluator.unary evaluator rhs_eval)
        | none => none
  | .binary tag L R, T, evaluator, target =>
      if h : Ty.binary tag L R = T then
        some (h ▸ JacobianEvaluator.self evaluator (isSame evaluator.expr target))
      else
        match contains_same_type L T, contains_same_type R T with
        | true, true =>
            match JacobianEvaluator.construct T evaluator.lhs_eval target,
                  JacobianEvaluator.construct T evaluator.rhs_eval target with
            | some lhs_eval, some rhs_eval =>
                some (JacobianEvaluator.binaryBoth evaluator lhs_eval rhs_eval)
            | _, _ => none
        | true, false =>
            match JacobianEvaluator.construct T evaluator.lhs_eval target with
            | some lhs_eval => some (JacobianEvaluator.binaryLhs evaluator lhs_eval)
            | none => none
        | false, true =>
            match JacobianEvaluator.construct T evaluator.rhs_eval target with
            | some rhs_eval => some (JacobianEvaluator.binaryRhs evaluator rhs_eval)
            | none => none
        | false, false => none

/-- The member function `jacobian()` of each specialisation. -/
def JacobianEvaluator.jacobian [Field K] {lib : Library K} :
    {D T : Ty} → JacobianEvaluator lib D T → Option (jacobian_t lib D T)
  | _, _, .self _ is_same =>
      if is_same then some 1 else none
  | _, _, .leaf => none
  | _, _, .unary evaluator rhs_eval =>
      match rhs_eval.jacobian with
      | some rhs_jac =>
          some (lib.jacobianImpl _ _ evaluator.value evaluator.rhs_eval₁.value * rhs_jac)
      | none => none
  | _, _, .binaryBoth evaluator lhs_eval rhs_eval =>
      match lhs_eval.jacobian, rhs_eval.jacobian with
      | some lhs_jac, some rhs_jac =>
          some (lib.leftJacobianImpl _ _ _ evaluator.value evaluator.lhs_eval.value
                  evaluator.rhs_eval.value * lhs_jac +
                lib.rightJacobianImpl _ _ _ evaluator.value evaluator.lhs_eval.value
                  evaluator.rhs_eval.value * rhs_jac)
      | some lhs_jac, none =>
          some (lib.leftJacobianImpl _ _ _ evaluator.value evaluator.lhs_eval.value
                  evaluator.rhs_eval.value * lhs_jac)
      | none, some rhs_jac =>
          some (lib.rightJacobianImpl _ _ _ evaluator.value evaluator.lhs_eval.value
                  evaluator.rhs_eval.value * rhs_jac)
      | none, none => none
  | _, _, .binaryLhs evaluator lhs_eval =>
      match lhs_eval.jacobian with
      | some lhs_jac =>
          some (lib.leftJacobianImpl _ _ _ evaluator.value evaluator.lhs_eval.value
                  evaluator.rhs_eval.value * lhs_jac)
      | none => none
  | _, _, .binaryRhs evaluator rhs_eval =>
      match rhs_eval.jacobian with
      | some rhs_jac =>
          some (lib.rightJacobianImpl _ _ _ evaluator.value evaluator.lhs_eval.value
                  evaluator.rhs_eval.value * rhs_jac)
      | none => none

/-- Names of the partial specialisations of `JacobianEvaluator`, in the order of the
header. -/
inductive Specialization where
  | self
  | leaf
  | unary
  | binaryBoth
  | binaryLhs
  | binaryRhs
deriving DecidableEq

/-- The condition under which each partial specialisation matches `(Derived, Target)`: the
pattern `<Derived, Derived>` of the first, the `enable_if_t` condition of the others (the
last two carry no `!is_same` conjunct).  `traits<Derived>::LhsDerived` and `RhsDerived`
exist for binary expressions only. -/
def Specialization.enabled : Specialization → Ty → Ty → Bool
  | .self, D, T => decide (D = T)
  | .leaf, D, T => is_leaf_or_scalar D && !decide (D = T)
  | .unary, D, T => is_unary_expression D && !decide (D = T)
  | .binaryBoth, .binary tag L R, T =>
      is_binary_expression (.binary tag L R) && contains_same_type L T &&
        contains_same_type R T && !decide (Ty.binary tag L R = T)
  | .binaryBoth, _, _ => false
  | .binaryLhs, .binary tag L R, T =>
      is_binary_expression (.binary tag L R) && contains_same_type L T &&
        !contains_same_type R T
  | .binaryLhs, _, _ => false
  | .binaryRhs, .binary tag L R, T =>
      is_binary_expression (.binary tag L R) && !contains_same_type L T &&
        contains_same_type R T
  | .binaryRhs, _, _ => false

/-- The specialisation an evaluator node is an instance of. -/
def JacobianEvaluator.specialization {lib : Library K} :
    {D T : Ty} → JacobianEvaluator lib D T → Specialization
  | _, _, .self _ _ => .self
  | _, _, .leaf => .leaf
  | _, _, .unary _ _ => .unary
  | _, _, .binaryBoth _ _ _ => .binaryBoth
  | _, _, .binaryLhs _ _ => .binaryLhs
  | _, _, .binaryRhs _ _ => .binaryRhs

/-- Number of local-Jacobian hook invocations (`jacobianImpl`, `leftJacobianImpl`,
`rightJacobianImpl`) made by one call of `jacobian()`, children included: the counter an
instrumented operator would show. -/
def JacobianEvaluator.localJacobianCalls [Field K] {lib : Library K} :
    {D T : Ty} → JacobianEvaluator lib D T → Nat
  | _, _, .self _ _ => 0
  | _, _, .leaf => 0
  | _, _, .unary _ rhs_eval =>
      rhs_eval.localJacobianCalls +
        (match rhs_eval.jacobian with
         | some _ => 1
         | none => 0)
  | _, _, .binaryBoth _ lhs_eval rhs_eval =>
      lhs_eval.localJacobianCalls + rhs_eval.localJacobianCalls +
        (match lhs_eval.jacobian, rhs_eval.jacobian with
         | some _, some _ => 2
         | some _, none => 1
         | none, some _ => 1
         | none, none => 0)
  | _, _, .binaryLhs _ lhs_eval =>
      lhs_eval.localJacobianCalls +
        (match lhs_eval.jacobian with
         | some _ => 1
         | none => 0)
  | _, _, .binaryRhs _ rhs_eval =>
      rhs_eval.localJacobianCalls +
        (match rhs_eval.jacobian with
         | some _ => 1
         | none => 0)

/-- The function `evaluateOneJacobian`: evaluate a Jacobian using an existing `Evaluator`
tree.  `none`: `JacobianEvaluator<Derived, Target>` is not defined for these types. -/
def evaluateOneJacobian [Field K] {lib : Library K} {D T : Ty} (v_eval : Evaluator lib D)
    (target : Expr lib T) : Option (jacobian_t lib D T) :=
  match JacobianEvaluator.construct T v_eval target with
  | some j_eval =>
      match j_eval.jacobian with
      | some result => some result
      | none => some 0
  | none => none

/-- The function `evaluateJacobian`: the driver `jacobian(expr, target)`. -/
def evaluateJacobian [Field K] {lib : Library K} {D T : Ty} (expr : Expr lib D)
    (target : Expr lib T) :
    Option (jacobian_t lib D T) :=
  let v_eval := prepareEvaluatorTo expr
  evaluateOneJacobian v_eval (getWrtTarget target)

/-- A target of a parameter pack `Targets...`: a target type with an object of that type. -/
abbrev Target (lib : Library K) : Type := (T : Ty) × Expr lib T

/-- A component `jacobian_t<Derived, Targets>` of the result tuple. -/
abbrev JacobianOut (lib : Library K) (D : Ty) : Type := (T : Ty) × jacobian_t lib D T

/-- The pack expansion `evaluateOneJacobian(v_eval, getWrtTarget(adl{}, targets))...`: one
call per target, in the order of the targets. -/
def evaluateOneJacobianPack [Field K] {lib : Library K} {D : Ty} (v_eval : Evaluator lib D) :
    List (Target lib) → Option (List (JacobianOut lib D))
  | [] => some []
  | ⟨T, target⟩ :: targets =>
      match evaluateOneJacobian v_eval (getWrtTarget target),
            evaluateOneJacobianPack v_eval targets with
      | some jac, some jacs => some (⟨T, jac⟩ :: jacs)
      | _, _ => none

/-- The function `evaluateWithJacobians`: the driver `value_and_jacobians(expr, targets...)`.
The tuple is a pair of the value and the list of the Jacobians. -/
def evaluateWithJacobians [Field K] {lib : Library K} {D : Ty} (expr : Expr lib D)
    (targets : List (Target lib)) : Option (lib.Val D × List (JacobianOut lib D)) :=
  let v_eval := prepareEvaluatorTo expr
  match evaluateOneJacobianPack v_eval targets with
  | some jacs => some (prepareOutput v_eval, jacs)
  | none => none

/-! ## The vector operator library of `VectorBase.hpp` -/

/-- The trait `TangentSize` of each expression type: a scalar has one coefficient, a vector
leaf has `Size`; `Sum` and `Scale` have the plain type of their right operand, `ScaleR` and
`ScaleDiv` that of their left operand, `Minus` that of its operand, and the norms are scalar
results. -/
def TangentSize : Ty → Nat
  | .leaf .scalar => 1
  | .leaf (.vector Size) => Size
  | .unary .Minus R => TangentSize R
  | .unary .SquaredNorm _ => 1
  | .unary .Norm _ => 1
  | .binary .Sum _ R => TangentSize R
  | .binary .Scale _ R => TangentSize R
  | .binary .ScaleR L _ => TangentSize L
  | .binary .ScaleDiv L _ => TangentSize L

/-- Plain values: the coefficients of the Eigen vector (one coefficient for a scalar). -/
abbrev PlainValue (K : Type) (D : Ty) : Type := Fin (TangentSize D) → K

/-- Coefficient `i` of a value; `0` outside the vector (never read for operand types the
operator templates accept: `Sum` requires operands of one size, the scalar operand of
`Scale`, `ScaleR`, `ScaleDiv` has one coefficient). -/
def coeff [Field K] {n : Nat} (v : Fin n → K) (i : Nat) : K :=
  if h : i < n then v ⟨i, h⟩ else 0

/-- The identity object `identity_t<..>{}` as a matrix of the shape it is converted to. -/
def identity_t [Field K] (m n : Nat) : Matrix (Fin m) (Fin n) K :=
  Matrix.of fun i j => if i.val = j.val then 1 else 0

/-- What `VectorBase.hpp` uses without defining: the square root behind Eigen's `norm()` and
the local Jacobian of `Minus`. -/
structure External (K : Type) where
  sqrt : K → K
  minusJacobian : (R : Ty) → PlainValue K (.unary .Minus R) → PlainValue K R →
    Matrix (Fin (TangentSize (.unary .Minus R))) (Fin (TangentSize R)) K

/-- The overloads `evalImpl(expr<Tag>, rhs)` of the unary operators. -/
def evalImpl₁ [Field K] (ext : External K) :
    (tag : UnaryTag) → (R : Ty) → PlainValue K R → PlainValue K (.unary tag R)
  | .Minus, _, rhs => fun i => - rhs i
  | .SquaredNorm, _, rhs => fun _ => ∑ i, rhs i * rhs i
  | .Norm, _, rhs => fun _ => ext.sqrt (∑ i, rhs i * rhs i)

/-- The overloads `evalImpl(expr<Tag>, lhs, rhs)` of the binary operators. -/
def evalImpl₂ [Field K] :
    (tag : BinaryTag) → (L R : Ty) → PlainValue K L → PlainValue K R →
      PlainValue K (.binary tag L R)
  | .Sum, _, _, lhs, rhs => fun i => coeff lhs i.val + rhs i
  | .Scale, _, _, lhs, rhs => fun i => coeff lhs 0 * rhs i
  | .ScaleR, _, _, lhs, rhs => fun i => lhs i * coeff rhs 0
  | .ScaleDiv, _, _, lhs, rhs => fun i => lhs i / coeff rhs 0

/-- The overloads `jacobianImpl(expr<Tag>, val, rhs)`; that of `Minus` is external. -/
def jacobianImpl [Field K] (ext : External K) :
    (tag : UnaryTag) → (R : Ty) → PlainValue K (.unary tag R) → PlainValue K R →
      Matrix (Fin (TangentSize (.unary tag R))) (Fin (TangentSize R)) K
  | .Minus, R, val, rhs => ext.minusJacobian R val rhs
  | .SquaredNorm, _, _, rhs => Matrix.of fun _ j => 2 * rhs j
  | .Norm, _, norm, rhs => Matrix.of fun _ j => rhs j / coeff norm 0

/-- Modelled from the spec: the overload `leftJacobianImpl(expr<Sum>, res, lhs, rhs)`, which
is not in the two headers.  The left local Jacobian of `Sum` is the identity ("both
branches' Jacobians are identity and sum"). -/
def leftJacobianImplSum [Field K] (L R : Ty) (_res : PlainValue K (.binary .Sum L R))
    (_lhs : PlainValue K L) (_rhs : PlainValue K R) :
    Matrix (Fin (TangentSize (.binary .Sum L R))) (Fin (TangentSize L)) K :=
  identity_t _ _

/-- Modelled from the spec: the overload `rightJacobianImpl(expr<Sum>, res, lhs, rhs)`, which
is not in the two headers.  The right local Jacobian of `Sum` is the identity ("both
branches' Jacobians are identity and sum"). -/
def rightJacobianImplSum [Field K] (L R : Ty) (_res : PlainValue K (.binary .Sum L R))
    (_lhs : PlainValue K L) (_rhs : PlainValue K R) :
    Matrix (Fin (TangentSize (.binary .Sum L R))) (Fin (TangentSize R)) K :=
  identity_t _ _

/-- The overloads `leftJacobianImpl(expr<Tag>, res, lhs, rhs)`; that of `Sum` is modelled
from the spec. -/
def leftJacobianImpl [Field K] :
    (tag : BinaryTag) → (L R : Ty) → PlainValue K (.binary tag L R) → PlainValue K L →
      PlainValue K R → Matrix (Fin (TangentSize (.binary tag L R))) (Fin (TangentSize L)) K
  | .Sum, L, R, res, lhs, rhs => leftJacobianImplSum L R res lhs rhs
  | .Scale, _, _, _, _, rhs => Matrix.of fun i _ => rhs i
  | .ScaleR, _, _, _, _, rhs => Matrix.of fun i j => coeff rhs 0 * identity_t _ _ i j
  | .ScaleDiv, _, _, _, _, rhs => Matrix.of fun i j => identity_t _ _ i j / coeff rhs 0

/-- The overloads `rightJacobianImpl(expr<Tag>, res, lhs, rhs)`; that of `Sum` is modelled
from the spec. -/
def rightJacobianImpl [Field K] :
    (tag : BinaryTag) → (L R : Ty) → PlainValue K (.binary tag L R) → PlainValue K L →
      PlainValue K R → Matrix (Fin (TangentSize (.binary tag L R))) (Fin (TangentSize R)) K
  | .Sum, L, R, res, lhs, rhs => rightJacobianImplSum L R res lhs rhs
  | .Scale, _, _, _, lhs, _ => Matrix.of fun i j => coeff lhs 0 * identity_t _ _ i j
  | .ScaleR, _, _, _, lhs, _ => Matrix.of fun i _ => lhs i
  | .ScaleDiv, _, _, _, lhs, rhs =>
      let rhs_squared := coeff rhs 0 * coeff rhs 0
      Matrix.of fun i _ => - lhs i / rhs_squared

/-- The operator library of `VectorBase.hpp`. -/
def vectorLibrary [Field K] (ext : External K) : Library K where
  Val := PlainValue K
  TangentSize := TangentSize
  evalImpl₁ := evalImpl₁ ext
  evalImpl₂ := evalImpl₂
  jacobianImpl := jacobianImpl ext
  leftJacobianImpl := leftJacobianImpl
  rightJacobianImpl := rightJacobianImpl


/-! ## The dense reference evaluator -/

/-- Number of nodes of an expression type. -/
def Ty.size : Ty → Nat
  | .leaf _ => 1
  | .unary _ R => R.size + 1
  | .binary _ L R => L.size + R.size + 1

/-- Whether `T` is the type of a node of an expression of type `D`. -/
def Ty.occurs (T : Ty) : Ty → Bool
  | .leaf l => decide (Ty.leaf l = T)
  | .unary tag R => decide (Ty.unary tag R = T) || Ty.occurs T R
  | .binary tag L R => decide (Ty.binary tag L R = T) || Ty.occurs T L || Ty.occurs T R

/-- Modelled from the spec: the dense reference evaluator, written after the words of the
specification and not after the header.  It returns the identity at the node identical to
the target (same type, same storage), an explicit zero matrix at every other leaf,
`local × Jc` at every unary node and `left_local × Jl + right_local × Jr` at every binary
node, with no pruning and no absent marker. -/
def denseJacobian [Field K] {lib : Library K} :
    {D : Ty} → (T : Ty) → Evaluator lib D → Expr lib T → jacobian_t lib D T
  | .leaf l, T, evaluator, target =>
      if Ty.leaf l = T ∧ evaluator.expr.addr = target.addr then identity_t _ _
      else 0
  | .unary tag R, T, evaluator, target =>
      if Ty.unary tag R = T ∧ evaluator.expr.addr = target.addr then identity_t _ _
      else
        lib.jacobianImpl tag R evaluator.value evaluator.rhs_eval₁.value *
          denseJacobian T evaluator.rhs_eval₁ target
  | .binary tag L R, T, evaluator, target =>
      if Ty.binary tag L R = T ∧ evaluator.expr.addr = target.addr then identity_t _ _
      else
        lib.leftJacobianImpl tag L R evaluator.value evaluator.lhs_eval.value
            evaluator.rhs_eval.value * denseJacobian T evaluator.lhs_eval target +
          lib.rightJacobianImpl tag L R evaluator.value evaluator.lhs_eval.value
            evaluator.rhs_eval.value * denseJacobian T evaluator.rhs_eval target

/-- Addresses of the expressions referenced by the nodes of a value-evaluator tree. -/
def Evaluator.addrs {lib : Library K} : {D : Ty} → Evaluator lib D → List Nat
  | _, .leaf e _ => [e.addr]
  | _, .unary e r _ => e.addr :: r.addrs
  | _, .binary e l r _ => e.addr :: (l.addrs ++ r.addrs)

/-- The leaves of an expression tree: address and leaf type of each. -/
def Expr.leaves {lib : Library K} : {D : Ty} → Expr lib D → List (Nat × LeafTy)
  | _, .leaf a l _ => [(a, l)]
  | _, .unary _ _ rhs => rhs.leaves
  | _, .binary _ _ lhs rhs => lhs.leaves ++ rhs.leaves

/-! ## Example objects -/

/-- An instance of the external parts over the rationals. -/
def exampleExternal : External ℚ where
  sqrt := Rat.sqrt
  minusJacobian := fun _ _ _ => Matrix.of fun i j => - identity_t _ _ i j

/-- The vector library over the rationals. -/
def exampleLibrary : Library ℚ := vectorLibrary exampleExternal

/-- The type of a 3-vector leaf. -/
abbrev Vec3 : Ty := .leaf (.vector 3)

/-- The type of a scalar leaf. -/
abbrev ScalarLeaf : Ty := .leaf .scalar

/-- The type of an `n`-vector leaf. -/
abbrev Vec (n : Nat) : Ty := .leaf (.vector n)

/-- A 3-vector leaf at address 100. -/
def leafA : Expr exampleLibrary Vec3 := .leaf 100 (.vector 3) ![1, 0, 0]

/-- A 3-vector leaf at address 200, numerically equal to `leafA`. -/
def leafB : Expr exampleLibrary Vec3 := .leaf 200 (.vector 3) ![1, 0, 0]

/-- A 3-vector leaf at address 300. -/
def leafC : Expr exampleLibrary Vec3 := .leaf 300 (.vector 3) ![0, 5, 7]

/-- A scalar leaf at address 400. -/
def leafS : Expr exampleLibrary ScalarLeaf := .leaf 400 .scalar ![2]


/-! ## Selection of the specialisation -/

theorem construct_self {lib : Library K} {D : Ty} (ev : Evaluator lib D) (target : Expr lib D) :
    JacobianEvaluator.construct D ev target
      = some (JacobianEvaluator.self ev (isSame ev.expr target)) := by
  cases D <;> simp [JacobianEvaluator.construct]

theorem construct_leaf_ne {lib : Library K} {l : LeafTy} {T : Ty} (ev : Evaluator lib (.leaf l))
    (target : Expr lib T) (h : Ty.leaf l ≠ T) :
    JacobianEvaluator.construct T ev target = some JacobianEvaluator.leaf := by
  simp [JacobianEvaluator.construct, h]

theorem construct_unary_ne {lib : Library K} {tag : UnaryTag} {R T : Ty}
    (ev : Evaluator lib (.unary tag R)) (target : Expr lib T) (h : Ty.unary tag R ≠ T) :
    JacobianEvaluator.construct T ev target
      = (JacobianEvaluator.construct T ev.rhs_eval₁ target).map (JacobianEvaluator.unary ev) := by
  simp only [JacobianEvaluator.construct, dif_neg h]
  cases JacobianEvaluator.construct T ev.rhs_eval₁ target <;> rfl

theorem construct_binary_both {lib : Library K} {tag : BinaryTag} {L R T : Ty}
    (ev : Evaluator lib (.binary tag L R)) (target : Expr lib T) (h : Ty.binary tag L R ≠ T)
    (hL : contains_same_type L T = true) (hR : contains_same_type R T = true) :
    JacobianEvaluator.construct T ev target
      = (JacobianEvaluator.construct T ev.lhs_eval target).bind fun lhs_eval =>
          (JacobianEvaluator.construct T ev.rhs_eval target).map fun rhs_eval =>
            JacobianEvaluator.binaryBoth ev lhs_eval rhs_eval := by
  simp only [JacobianEvaluator.construct, dif_neg h, hL, hR]
  cases JacobianEvaluator.construct T ev.lhs_eval target <;>
    cases JacobianEvaluator.construct T ev.rhs_eval target <;> rfl

theorem construct_binary_lhs {lib : Library K} {tag : BinaryTag} {L R T : Ty}
    (ev : Evaluator lib (.binary tag L R)) (target : Expr lib T) (h : Ty.binary tag L R ≠ T)
    (hL : contains_same_type L T = true) (hR : contains_same_type R T = false) :
    JacobianEvaluator.construct T ev target
      = (JacobianEvaluator.construct T ev.lhs_eval target).map
          (JacobianEvaluator.binaryLhs ev) := by
  simp only [JacobianEvaluator.construct, dif_neg h, hL, hR]
  cases JacobianEvaluator.construct T ev.lhs_eval target <;> rfl

theorem construct_binary_rhs {lib : Library K} {tag : BinaryTag} {L R T : Ty}
    (ev : Evaluator lib (.binary tag L R)) (target : Expr lib T) (h : Ty.binary tag L R ≠ T)
    (hL : contains_same_type L T = false) (hR : contains_same_type R T = true) :
    JacobianEvaluator.construct T ev target
      = (JacobianEvaluator.construct T ev.rhs_eval target).map
          (JacobianEvaluator.binaryRhs ev) := by
  simp only [JacobianEvaluator.construct, dif_neg h, hL, hR]
  cases JacobianEvaluator.construct T ev.rhs_eval target <;> rfl

theorem construct_binary_neither {lib : Library K} {tag : BinaryTag} {L R T : Ty}
    (ev : Evaluator lib (.binary tag L R)) (target : Expr lib T) (h : Ty.binary tag L R ≠ T)
    (hL : contains_same_type L T = false) (hR : contains_same_type R T = false) :
    JacobianEvaluator.construct T ev target = none := by
  simp only [JacobianEvaluator.construct, dif_neg h, hL, hR]

/-- A type that may be contained is a leaf type. -/
theorem contains_same_type_leaf {D T : Ty} (h : contains_same_type D T = true) :
    ∃ l, T = Ty.leaf l := by
  induction D with
  | leaf l => exact ⟨l, (show Ty.leaf l = T by simpa [contains_same_type] using h).symm⟩
  | unary tag R ih => exact ih (by simpa [contains_same_type] using h)
  | binary tag L R ihL ihR =>
      simp only [contains_same_type, Bool.or_eq_true] at h
      rcases h with h | h
      · exact ihL h
      · exact ihR h

/-- A node that may contain the target type has a Jacobian evaluator. -/
theorem construct_isSome_of_contains {lib : Library K} {D T : Ty} (ev : Evaluator lib D)
    (target : Expr lib T) (h : contains_same_type D T = true) :
    ∃ j, JacobianEvaluator.construct T ev target = some j := by
  induction ev with
  | @leaf l e v =>
      have hT : Ty.leaf l = T := by simpa [contains_same_type] using h
      subst hT
      exact ⟨_, construct_self _ _⟩
  | @unary tag R e r v ih =>
      obtain ⟨l, hl⟩ := contains_same_type_leaf h
      have hne : Ty.unary tag R ≠ T := by rw [hl]; exact fun hh => Ty.noConfusion hh
      obtain ⟨j, hj⟩ := ih (by simpa [contains_same_type] using h)
      refine ⟨JacobianEvaluator.unary (Evaluator.unary e r v) j, ?_⟩
      rw [construct_unary_ne _ _ hne]
      simp [Evaluator.rhs_eval₁, hj]
  | @binary tag L R e l r v ihl ihr =>
      obtain ⟨lf, hl⟩ := contains_same_type_leaf h
      have hne : Ty.binary tag L R ≠ T := by rw [hl]; exact fun hh => Ty.noConfusion hh
      simp only [contains_same_type, Bool.or_eq_true] at h
      cases hL : contains_same_type L T <;> cases hR : contains_same_type R T
      · simp [hL, hR] at h
      · obtain ⟨j, hj⟩ := ihr hR
        refine ⟨JacobianEvaluator.binaryRhs (Evaluator.binary e l r v) j, ?_⟩
        rw [construct_binary_rhs _ _ hne hL hR]
        simp [Evaluator.rhs_eval, hj]
      · obtain ⟨j, hj⟩ := ihl hL
        refine ⟨JacobianEvaluator.binaryLhs (Evaluator.binary e l r v) j, ?_⟩
        rw [construct_binary_lhs _ _ hne hL hR]
        simp [Evaluator.lhs_eval, hj]
      · obtain ⟨jl, hjl⟩ := ihl hL
        obtain ⟨jr, hjr⟩ := ihr hR
        refine ⟨JacobianEvaluator.binaryBoth (Evaluator.binary e l r v) jl jr, ?_⟩
        rw [construct_binary_both _ _ hne hL hR]
        simp [Evaluator.lhs_eval, Evaluator.rhs_eval, hjl, hjr]


/-- At most one partial specialisation matches a pair of types, so the selection is never
ambiguous. -/
theorem Specialization.enabled_unique (s₁ s₂ : Specialization) (D T : Ty)
    (h₁ : s₁.enabled D T = true) (h₂ : s₂.enabled D T = true) : s₁ = s₂ := by
  have key : ∀ tag L R, contains_same_type L T = true ∨ contains_same_type R T = true →
      Ty.binary tag L R ≠ T := by
    intro tag L R hc
    have hleaf : ∃ l, T = Ty.leaf l := hc.elim contains_same_type_leaf contains_same_type_leaf
    obtain ⟨l, hl⟩ := hleaf
    rw [hl]
    exact fun hh => Ty.noConfusion hh
  cases D with
  | leaf l =>
      cases s₁ <;> cases s₂ <;>
        simp_all [Specialization.enabled, is_leaf_or_scalar, is_unary_expression]
  | unary tag R =>
      cases s₁ <;> cases s₂ <;>
        simp_all [Specialization.enabled, is_leaf_or_scalar, is_unary_expression]
  | binary tag L R =>
      have k := key tag L R
      cases s₁ <;> cases s₂ <;>
        simp_all [Specialization.enabled, is_leaf_or_scalar, is_unary_expression,
          is_binary_expression]

/-- The evaluator that is constructed is an instance of the specialisation that matches. -/
theorem construct_enabled {lib : Library K} {D T : Ty} (ev : Evaluator lib D)
    (target : Expr lib T) (j : JacobianEvaluator lib D T)
    (hj : JacobianEvaluator.construct T ev target = some j) :
    j.specialization.enabled D T = true := by
  by_cases h : D = T
  · subst h
    rw [construct_self] at hj
    cases hj
    simp [JacobianEvaluator.specialization, Specialization.enabled]
  · cases ev with
    | @leaf l e v =>
        rw [construct_leaf_ne _ _ h] at hj
        cases hj
        simp [JacobianEvaluator.specialization, Specialization.enabled, is_leaf_or_scalar, h]
    | @unary tag R e r v =>
        rw [construct_unary_ne _ _ h] at hj
        cases hc : JacobianEvaluator.construct T (Evaluator.unary e r v).rhs_eval₁ target with
        | none => simp [hc] at hj
        | some jr =>
            simp only [hc, Option.map_some', Option.some.injEq] at hj
            subst hj
            simp [JacobianEvaluator.specialization, Specialization.enabled,
              is_unary_expression, h]
    | @binary tag L R e l r v =>
        cases hL : contains_same_type L T <;> cases hR : contains_same_type R T
        · rw [construct_binary_neither _ _ h hL hR] at hj
          cases hj
        · rw [construct_binary_rhs _ _ h hL hR] at hj
          cases hc : JacobianEvaluator.construct T (Evaluator.binary e l r v).rhs_eval target with
          | none => simp [hc] at hj
          | some jr =>
              simp only [hc, Option.map_some', Option.some.injEq] at hj
              subst hj
              simp [JacobianEvaluator.specialization, Specialization.enabled,
                is_binary_expression, hL, hR]
        · rw [construct_binary_lhs _ _ h hL hR] at hj
          cases hc : JacobianEvaluator.construct T (Evaluator.binary e l r v).lhs_eval target with
          | none => simp [hc] at hj
          | some jl =>
              simp only [hc, Option.map_some', Option.some.injEq] at hj
              subst hj
              simp [JacobianEvaluator.specialization, Specialization.enabled,
                is_binary_expression, hL, hR]
        · rw [construct_binary_both _ _ h hL hR] at hj
          cases hcl : JacobianEvaluator.construct T (Evaluator.binary e l r v).lhs_eval target with
          | none => simp [hcl] at hj
          | some jl =>
              cases hcr : JacobianEvaluator.construct T (Evaluator.binary e l r v).rhs_eval
                  target with
              | none => simp [hcl, hcr] at hj
              | some jr =>
                  simp only [hcl, hcr, Option.some_bind, Option.map_some',
                    Option.some.injEq] at hj
                  subst hj
                  simp [JacobianEvaluator.specialization, Specialization.enabled,
                    is_binary_expression, hL, hR, h]

theorem prepareEvaluatorTo_addrs {lib : Library K} {D : Ty} (e : Expr lib D) :
    (prepareEvaluatorTo e).addrs = e.addrs := by
  induction e with
  | leaf a l v => rfl
  | unary a tag rhs ih => simp [prepareEvaluatorTo, Evaluator.addrs, Expr.addrs, ih, Expr.addr]
  | binary a tag lhs rhs ihl ihr =>
      simp [prepareEvaluatorTo, Evaluator.addrs, Expr.addrs, ihl, ihr, Expr.addr]

/-- The dynamic absent path: when the target is stored at none of the nodes, every evaluator
that is selected returns absent. -/
theorem jacobian_none_of_not_mem [Field K] {lib : Library K} {D T : Ty} (ev : Evaluator lib D)
    (target : Expr lib T) (hout : target.addr ∉ ev.addrs) :
    ∀ j, JacobianEvaluator.construct T ev target = some j → j.jacobian = none := by
  induction ev with
  | @leaf l e v =>
      intro j hj
      by_cases h : Ty.leaf l = T
      · subst h
        rw [construct_self] at hj
        cases hj
        have : e.addr ≠ target.addr := by
          intro hh; exact hout (by simp [Evaluator.addrs, hh])
        simp [JacobianEvaluator.jacobian, isSame, Evaluator.expr, this]
      · rw [construct_leaf_ne _ _ h] at hj
        cases hj
        rfl
  | @unary tag R e r v ih =>
      intro j hj
      have hr : target.addr ∉ r.addrs := fun hh => hout (by simp [Evaluator.addrs, hh])
      by_cases h : Ty.unary tag R = T
      · subst h
        rw [construct_self] at hj
        cases hj
        have : e.addr ≠ target.addr := by
          intro hh; exact hout (by simp [Evaluator.addrs, hh])
        simp [JacobianEvaluator.jacobian, isSame, Evaluator.expr, this]
      · rw [construct_unary_ne _ _ h] at hj
        simp only [Evaluator.rhs_eval₁] at hj
        cases hc : JacobianEvaluator.construct T r target with
        | none => simp [hc] at hj
        | some jr =>
            simp only [hc, Option.map_some', Option.some.injEq] at hj
            subst hj
            simp [JacobianEvaluator.jacobian, ih hr jr hc]
  | @binary tag L R e l r v ihl ihr =>
      intro j hj
      have hl : target.addr ∉ l.addrs := fun hh => hout (by simp [Evaluator.addrs, hh])
      have hr : target.addr ∉ r.addrs := fun hh => hout (by simp [Evaluator.addrs, hh])
      by_cases h : Ty.binary tag L R = T
      · subst h
        rw [construct_self] at hj
        cases hj
        have : e.addr ≠ target.addr := by
          intro hh; exact hout (by simp [Evaluator.addrs, hh])
        simp [JacobianEvaluator.jacobian, isSame, Evaluator.expr, this]
      · cases hL : contains_same_type L T <;> cases hR : contains_same_type R T
        · rw [construct_binary_neither _ _ h hL hR] at hj
          cases hj
        · rw [construct_binary_rhs _ _ h hL hR] at hj
          simp only [Evaluator.rhs_eval] at hj
          cases hc : JacobianEvaluator.construct T r target with
          | none => simp [hc] at hj
          | some jr =>
              simp only [hc, Option.map_some', Option.some.injEq] at hj
              subst hj
              simp [JacobianEvaluator.jacobian, ihr hr jr hc]
        · rw [construct_binary_lhs _ _ h hL hR] at hj
          simp only [Evaluator.lhs_eval] at hj
          cases hc : JacobianEvaluator.construct T l target with
          | none => simp [hc] at hj
          | some jl =>
              simp only [hc, Option.map_some', Option.some.injEq] at hj
              subst hj
              simp [JacobianEvaluator.jacobian, ihl hl jl hc]
        · rw [construct_binary_both _ _ h hL hR] at hj
          simp only [Evaluator.lhs_eval, Evaluator.rhs_eval] at hj
          cases hcl : JacobianEvaluator.construct T l target with
          | none => simp [hcl] at hj
          | some jl =>
              cases hcr : JacobianEvaluator.construct T r target with
              | none => simp [hcl, hcr] at hj
              | some jr =>
                  simp only [hcl, hcr, Option.some_bind, Option.map_some',
                    Option.some.injEq] at hj
                  subst hj
                  simp [JacobianEvaluator.jacobian, ihl hl jl hcl, ihr hr jr hcr]


/-! ## The claims -/

/-- C1, self-identity: for every single leaf `x`, `jacobian(x, x)` with both arguments the
same object is the identity matrix of shape `jacobian_shape(x, x)`: the Self evaluator is
selected and caches `is_same = true`, its `jacobian()` returns a present identity, and the
driver returns it unchanged. -/
theorem self_identity [Field K] (lib : Library K) (addr : Nat) (l : LeafTy)
    (value : lib.Val (.leaf l)) :
    JacobianEvaluator.construct (.leaf l) (prepareEvaluatorTo (Expr.leaf addr l value))
        (getWrtTarget (Expr.leaf addr l value))
      = some (JacobianEvaluator.self (prepareEvaluatorTo (Expr.leaf addr l value)) true) ∧
    (JacobianEvaluator.self (prepareEvaluatorTo (Expr.leaf addr l value)) true).jacobian
      = some (1 : jacobian_t lib (.leaf l) (.leaf l)) ∧
    evaluateJacobian (Expr.leaf addr l value) (Expr.leaf addr l value)
      = some (1 : jacobian_t lib (.leaf l) (.leaf l)) := by
  have hc : JacobianEvaluator.construct (.leaf l) (prepareEvaluatorTo (Expr.leaf addr l value))
        (getWrtTarget (Expr.leaf addr l value))
      = some (JacobianEvaluator.self (prepareEvaluatorTo (Expr.leaf addr l value)) true) := by
    rw [construct_self]
    simp [isSame, getWrtTarget, prepareEvaluatorTo, Evaluator.expr]
  refine ⟨hc, rfl, ?_⟩
  simp only [evaluateJacobian, evaluateOneJacobian, hc]
  rfl

/-- C2, independence: for every pair of leaves `x` and `y` with different storage identity,
whatever their values (numerically equal values included), a Jacobian evaluator is selected
for `(x, y)` (the Self specialisation when the types agree, the independent-leaf one
otherwise), it returns absent, and `jacobian(x, y)` is the zero matrix. -/
theorem independence [Field K] (lib : Library K) (ax ay : Nat) (lx ly : LeafTy)
    (vx : lib.Val (.leaf lx)) (vy : lib.Val (.leaf ly)) (h : ax ≠ ay) :
    (∃ j, JacobianEvaluator.construct (.leaf ly) (prepareEvaluatorTo (Expr.leaf ax lx vx))
        (getWrtTarget (Expr.leaf ay ly vy)) = some j ∧
      j.specialization = (if lx = ly then Specialization.self else Specialization.leaf) ∧
      j.jacobian = none) ∧
    evaluateJacobian (Expr.leaf ax lx vx) (Expr.leaf ay ly vy)
      = some (0 : jacobian_t lib (.leaf lx) (.leaf ly)) := by
  have hex : ∃ j, JacobianEvaluator.construct (.leaf ly)
      (prepareEvaluatorTo (Expr.leaf ax lx vx)) (getWrtTarget (Expr.leaf ay ly vy)) = some j ∧
      j.specialization = (if lx = ly then Specialization.self else Specialization.leaf) ∧
      j.jacobian = none := by
    by_cases ht : Ty.leaf lx = Ty.leaf ly
    · have hl : lx = ly := by injection ht
      subst hl
      refine ⟨_, construct_self _ _, ?_, ?_⟩
      · simp [JacobianEvaluator.specialization]
      · simp [JacobianEvaluator.jacobian, isSame, getWrtTarget, prepareEvaluatorTo,
          Evaluator.expr, Expr.addr, h]
    · have hl : lx ≠ ly := fun hh => ht (by rw [hh])
      exact ⟨_, construct_leaf_ne _ _ ht, by simp [JacobianEvaluator.specialization, hl], rfl⟩
  refine ⟨hex, ?_⟩
  obtain ⟨j, hj, _, hnone⟩ := hex
  simp only [evaluateJacobian, evaluateOneJacobian, hj, hnone]

/-- Witness of C2: two numerically equal 3-vector leaves at different addresses. -/
theorem independence_witness :
    (100 : Nat) ≠ 200 ∧
    evaluateJacobian leafA leafB = some (0 : jacobian_t exampleLibrary Vec3 Vec3) :=
  ⟨by decide, (independence exampleLibrary 100 200 (.vector 3) (.vector 3) ![1, 0, 0]
    ![1, 0, 0] (by decide)).2⟩

/-- C3, driver materialisation: for every expression and target with root Jacobian
evaluator `j_eval`, `evaluateOneJacobian` and `evaluateJacobian` return exactly `M` when
`j_eval.jacobian()` is present(`M`) and the all-zero matrix of shape `jacobian_shape(E, t)`
when it is absent; in both cases a matrix is returned. -/
theorem driver_materialisation [Field K] (lib : Library K) {D T : Ty} (expr : Expr lib D)
    (target : Expr lib T) (j_eval : JacobianEvaluator lib D T)
    (hj : JacobianEvaluator.construct T (prepareEvaluatorTo expr) (getWrtTarget target)
      = some j_eval) :
    (∀ M, j_eval.jacobian = some M →
      evaluateOneJacobian (prepareEvaluatorTo expr) (getWrtTarget target) = some M ∧
      evaluateJacobian expr target = some M) ∧
    (j_eval.jacobian = none →
      evaluateOneJacobian (prepareEvaluatorTo expr) (getWrtTarget target)
        = some (0 : jacobian_t lib D T) ∧
      evaluateJacobian expr target = some (0 : jacobian_t lib D T)) ∧
    ∃ M, evaluateJacobian expr target = some M := by
  refine ⟨?_, ?_, ?_⟩
  · intro M hM
    simp only [evaluateJacobian, evaluateOneJacobian, hj, hM, and_self]
  · intro hM
    simp only [evaluateJacobian, evaluateOneJacobian, hj, hM, and_self]
  · cases hM : j_eval.jacobian with
    | none => exact ⟨0, by simp only [evaluateJacobian, evaluateOneJacobian, hj, hM]⟩
    | some M => exact ⟨M, by simp only [evaluateJacobian, evaluateOneJacobian, hj, hM]⟩

/-- Witness of C3: the sum of two leaves differentiated by an unrelated leaf of the same
type. -/
theorem driver_materialisation_witness :
    ∃ j_eval, JacobianEvaluator.construct Vec3
        (prepareEvaluatorTo (Expr.binary 500 .Sum leafA leafC)) (getWrtTarget leafB)
        = some j_eval ∧
      j_eval.jacobian = none ∧
      evaluateJacobian (Expr.binary 500 .Sum leafA leafC) leafB
        = some (0 : jacobian_t exampleLibrary (.binary .Sum Vec3 Vec3) Vec3) :=
  ⟨_, rfl, rfl, ((driver_materialisation exampleLibrary (Expr.binary 500 .Sum leafA leafC) leafB
    _ rfl).2.1 rfl).2⟩


/-- C4, binary node where both children may contain the target type: both child Jacobian
evaluators exist, the node is the both-sides specialisation over them, and with
`Jl = lhs.jacobian()`, `Jr = rhs.jacobian()` its `jacobian()` is
`left_local × Jl + right_local × Jr` when both are present, `left_local × Jl` when only `Jl`
is, `right_local × Jr` when only `Jr` is, and absent when both are absent; the local
Jacobians are evaluated at the cached node, lhs and rhs values. -/
theorem binary_both_jacobian [Field K] (lib : Library K) {tag : BinaryTag} {L R T : Ty}
    (evaluator : Evaluator lib (.binary tag L R)) (target : Expr lib T)
    (hL : contains_same_type L T = true) (hR : contains_same_type R T = true) :
    ∃ lhs_eval rhs_eval,
      JacobianEvaluator.construct T evaluator.lhs_eval target = some lhs_eval ∧
      JacobianEvaluator.construct T evaluator.rhs_eval target = some rhs_eval ∧
      JacobianEvaluator.construct T evaluator target
        = some (JacobianEvaluator.binaryBoth evaluator lhs_eval rhs_eval) ∧
      (JacobianEvaluator.binaryBoth evaluator lhs_eval rhs_eval).jacobian
        = match lhs_eval.jacobian, rhs_eval.jacobian with
          | some Jl, some Jr =>
              some (lib.leftJacobianImpl tag L R evaluator.value evaluator.lhs_eval.value
                      evaluator.rhs_eval.value * Jl +
                    lib.rightJacobianImpl tag L R evaluator.value evaluator.lhs_eval.value
                      evaluator.rhs_eval.value * Jr)
          | some Jl, none =>
              some (lib.leftJacobianImpl tag L R evaluator.value evaluator.lhs_eval.value
                      evaluator.rhs_eval.value * Jl)
          | none, some Jr =>
              some (lib.rightJacobianImpl tag L R evaluator.value evaluator.lhs_eval.value
                      evaluator.rhs_eval.value * Jr)
          | none, none => none := by
  obtain ⟨jl, hjl⟩ := construct_isSome_of_contains evaluator.lhs_eval target hL
  obtain ⟨jr, hjr⟩ := construct_isSome_of_contains evaluator.rhs_eval target hR
  obtain ⟨lf, hlf⟩ := contains_same_type_leaf hL
  have hne : Ty.binary tag L R ≠ T := by rw [hlf]; exact fun hh => Ty.noConfusion hh
  refine ⟨jl, jr, hjl, hjr, ?_, ?_⟩
  · rw [construct_binary_both _ _ hne hL hR, hjl, hjr]
    rfl
  · simp only [JacobianEvaluator.jacobian]
    cases jl.jacobian <;> cases jr.jacobian <;> rfl

/-- Witness of C4: the sum of two 3-vector leaves, for a target of their type. -/
theorem binary_both_jacobian_witness :
    contains_same_type Vec3 Vec3 = true ∧
    ∃ lhs_eval rhs_eval,
      JacobianEvaluator.construct Vec3
        (prepareEvaluatorTo (Expr.binary 500 .Sum leafA leafC)) leafA
        = some (JacobianEvaluator.binaryBoth
            (prepareEvaluatorTo (Expr.binary 500 .Sum leafA leafC)) lhs_eval rhs_eval) :=
  ⟨by decide,
    (binary_both_jacobian exampleLibrary (prepareEvaluatorTo (Expr.binary 500 .Sum leafA leafC))
      leafA (by decide) (by decide)).imp fun _ h => h.imp fun _ hh => hh.2.2.1⟩

/-- C5, unary node whose type differs from the target type: its evaluator is the unary
specialisation over the child evaluator (it exists exactly when the child evaluator does);
with `Jc = child.jacobian()`, `jacobian()` is absent when `Jc` is absent and is
`local_jacobian(tag, node_value, child_value) × Jc` otherwise; in the absent case the node
invokes no local-Jacobian hook. -/
theorem unary_jacobian [Field K] (lib : Library K) {tag : UnaryTag} {R T : Ty}
    (evaluator : Evaluator lib (.unary tag R)) (target : Expr lib T)
    (hne : Ty.unary tag R ≠ T) :
    JacobianEvaluator.construct T evaluator target
      = (JacobianEvaluator.construct T evaluator.rhs_eval₁ target).map
          (JacobianEvaluator.unary evaluator) ∧
    ∀ rhs_eval : JacobianEvaluator lib R T,
      (rhs_eval.jacobian = none →
        (JacobianEvaluator.unary evaluator rhs_eval).jacobian = none ∧
        (JacobianEvaluator.unary evaluator rhs_eval).localJacobianCalls
          = rhs_eval.localJacobianCalls) ∧
      (∀ Jc, rhs_eval.jacobian = some Jc →
        (JacobianEvaluator.unary evaluator rhs_eval).jacobian
          = some (lib.jacobianImpl tag R evaluator.value evaluator.rhs_eval₁.value * Jc) ∧
        (JacobianEvaluator.unary evaluator rhs_eval).localJacobianCalls
          = rhs_eval.localJacobianCalls + 1) := by
  refine ⟨construct_unary_ne _ _ hne, fun rhs_eval => ⟨?_, ?_⟩⟩
  · intro h
    simp [JacobianEvaluator.jacobian, JacobianEvaluator.localJacobianCalls, h]
  · intro Jc h
    simp [JacobianEvaluator.jacobian, JacobianEvaluator.localJacobianCalls, h]

/-- Witness of C5: the squared norm of a 3-vector leaf, for a target that is a leaf. -/
theorem unary_jacobian_witness :
    Ty.unary .SquaredNorm Vec3 ≠ Vec3 ∧
    JacobianEvaluator.construct Vec3
        (prepareEvaluatorTo (Expr.unary 600 .SquaredNorm leafA)) leafA
      = (JacobianEvaluator.construct Vec3
          (prepareEvaluatorTo (Expr.unary 600 .SquaredNorm leafA)).rhs_eval₁ leafA).map
          (JacobianEvaluator.unary (prepareEvaluatorTo (Expr.unary 600 .SquaredNorm leafA))) :=
  ⟨by decide,
    (unary_jacobian exampleLibrary (prepareEvaluatorTo (Expr.unary 600 .SquaredNorm leafA))
      leafA (by decide)).1⟩


/-- A leaf of the tree has a type the tree may contain. -/
theorem contains_of_mem_leaves {lib : Library K} {D : Ty} (e : Expr lib D) (a : Nat)
    (l : LeafTy) (h : (a, l) ∈ e.leaves) : contains_same_type D (.leaf l) = true := by
  induction e with
  | leaf a0 l0 v =>
      simp only [Expr.leaves, List.mem_singleton, Prod.mk.injEq] at h
      simp [contains_same_type, h.2]
  | unary a0 tag rhs ih => exact ih h
  | binary a0 tag lhs rhs ihl ihr =>
      simp only [Expr.leaves, List.mem_append] at h
      simp only [contains_same_type, Bool.or_eq_true]
      exact h.imp ihl ihr

/-- C6, linearity in target: for every binary operator `tag`, operands `lhs` and `rhs`, and
target leaf `t` that is a leaf of `lhs` and is stored at no node of `rhs`,
`jacobian(binop(lhs, rhs), t) = left_local_jacobian(binop, value, lhs, rhs) × jacobian(lhs, t)`,
both being driver results (absent materialised as zero), whether or not `rhs` may contain
the type of `t`. -/
theorem linearity_in_target [Field K] (lib : Library K) {L R : Ty} (addr : Nat)
    (tag : BinaryTag) (lhs : Expr lib L) (rhs : Expr lib R) (ta : Nat) (l : LeafTy)
    (tv : lib.Val (.leaf l)) (hin : (ta, l) ∈ lhs.leaves) (hout : ta ∉ rhs.addrs) :
    ∃ Jl, evaluateJacobian lhs (Expr.leaf ta l tv) = some Jl ∧
      evaluateJacobian (Expr.binary addr tag lhs rhs) (Expr.leaf ta l tv)
        = some (lib.leftJacobianImpl tag L R (evaluate (Expr.binary addr tag lhs rhs))
                  (evaluate lhs) (evaluate rhs) * Jl) := by
  have hL := contains_of_mem_leaves lhs ta l hin
  have hne : Ty.binary tag L R ≠ Ty.leaf l := fun hh => Ty.noConfusion hh
  obtain ⟨jl, hjl⟩ := construct_isSome_of_contains (prepareEvaluatorTo lhs)
    (Expr.leaf ta l tv) hL
  have hnode : ∃ j, JacobianEvaluator.construct (.leaf l)
        (prepareEvaluatorTo (Expr.binary addr tag lhs rhs)) (Expr.leaf ta l tv) = some j ∧
      j.jacobian = jl.jacobian.map fun J =>
        lib.leftJacobianImpl tag L R (evaluate (Expr.binary addr tag lhs rhs))
          (evaluate lhs) (evaluate rhs) * J := by
    cases hR : contains_same_type R (.leaf l)
    · refine ⟨JacobianEvaluator.binaryLhs (prepareEvaluatorTo (Expr.binary addr tag lhs rhs)) jl,
        ?_, ?_⟩
      · rw [construct_binary_lhs _ _ hne hL hR]
        simp only [prepareEvaluatorTo, Evaluator.lhs_eval, hjl, Option.map_some']
      · simp only [JacobianEvaluator.jacobian]
        cases jl.jacobian <;> rfl
    · obtain ⟨jr, hjr⟩ := construct_isSome_of_contains (prepareEvaluatorTo rhs)
        (Expr.leaf ta l tv) hR
      have hnone : jr.jacobian = none :=
        jacobian_none_of_not_mem (prepareEvaluatorTo rhs) (Expr.leaf ta l tv)
          (by rw [prepareEvaluatorTo_addrs]; exact hout) jr hjr
      refine ⟨JacobianEvaluator.binaryBoth (prepareEvaluatorTo (Expr.binary addr tag lhs rhs))
        jl jr, ?_, ?_⟩
      · rw [construct_binary_both _ _ hne hL hR]
        simp only [prepareEvaluatorTo, Evaluator.lhs_eval, Evaluator.rhs_eval, hjl, hjr,
          Option.some_bind, Option.map_some']
      · simp only [JacobianEvaluator.jacobian, hnone]
        cases jl.jacobian <;> rfl
  obtain ⟨j, hj, hjac⟩ := hnode
  cases hJ : jl.jacobian with
  | none =>
      refine ⟨0, ?_, ?_⟩
      · simp only [evaluateJacobian, evaluateOneJacobian, getWrtTarget, hjl, hJ]
      · rw [hJ] at hjac
        simp only [evaluateJacobian, evaluateOneJacobian, getWrtTarget, hj, hjac,
          Option.map_none', Matrix.mul_zero]
  | some J =>
      refine ⟨J, ?_, ?_⟩
      · simp only [evaluateJacobian, evaluateOneJacobian, getWrtTarget, hjl, hJ]
      · rw [hJ] at hjac
        simp only [evaluateJacobian, evaluateOneJacobian, getWrtTarget, hj, hjac,
          Option.map_some']

/-- Witness of C6: `a + c` differentiated by `a`, where `c` has the type of `a` but is
another object. -/
theorem linearity_in_target_witness :
    ((100, LeafTy.vector 3) ∈ leafA.leaves ∧ 100 ∉ leafC.addrs) ∧
    ∃ Jl, evaluateJacobian leafA leafA = some Jl ∧
      evaluateJacobian (Expr.binary 500 .Sum leafA leafC) leafA
        = some (exampleLibrary.leftJacobianImpl .Sum Vec3 Vec3
                  (evaluate (Expr.binary 500 .Sum leafA leafC)) (evaluate leafA)
                  (evaluate leafC) * Jl) :=
  ⟨⟨by decide, by decide⟩,
    linearity_in_target exampleLibrary 500 .Sum leafA leafC 100 (.vector 3) ![1, 0, 0]
      (by decide) (by decide)⟩


/-- The pack expansion succeeds when every target has a Jacobian evaluator, and its results
are those of `evaluateOneJacobian`, position by position. -/
theorem evaluateOneJacobianPack_spec [Field K] {lib : Library K} {D : Ty}
    (v_eval : Evaluator lib D) (targets : List (Target lib))
    (h : ∀ t ∈ targets, ∃ j,
      JacobianEvaluator.construct t.1 v_eval (getWrtTarget t.2) = some j) :
    ∃ jacs, evaluateOneJacobianPack v_eval targets = some jacs ∧
      List.Forall₂ (fun (t : Target lib) (J : JacobianOut lib D) =>
        (evaluateOneJacobian v_eval (getWrtTarget t.2)).map
          (fun M => (⟨t.1, M⟩ : JacobianOut lib D)) = some J) targets jacs := by
  induction targets with
  | nil => exact ⟨[], rfl, List.Forall₂.nil⟩
  | cons t ts ih =>
      obtain ⟨jacs, hjacs, hall⟩ := ih (fun u hu => h u (List.mem_cons_of_mem _ hu))
      obtain ⟨j, hj⟩ := h t (List.mem_cons_self _ _)
      obtain ⟨M, hM⟩ : ∃ M, evaluateOneJacobian v_eval (getWrtTarget t.2) = some M := by
        cases hjac : j.jacobian with
        | none => exact ⟨0, by simp only [evaluateOneJacobian, hj, hjac]⟩
        | some M => exact ⟨M, by simp only [evaluateOneJacobian, hj, hjac]⟩
      refine ⟨⟨t.1, M⟩ :: jacs, ?_, List.Forall₂.cons ?_ hall⟩
      · obtain ⟨T, target⟩ := t
        simp only [evaluateOneJacobianPack, hM, hjacs]
      · simp only [hM, Option.map_some']

/-- C7, value preservation: for every expression and every list of targets (the empty list
included) each of which has a Jacobian evaluator, `evaluateWithJacobians` returns a tuple
whose first component is `evaluate(expr)`, whatever the targets and their number. -/
theorem value_preservation [Field K] (lib : Library K) {D : Ty} (expr : Expr lib D)
    (targets : List (Target lib))
    (h : ∀ t ∈ targets, ∃ j,
      JacobianEvaluator.construct t.1 (prepareEvaluatorTo expr) (getWrtTarget t.2) = some j) :
    ∃ jacs, evaluateWithJacobians expr targets = some (evaluate expr, jacs) := by
  obtain ⟨jacs, hjacs, _⟩ := evaluateOneJacobianPack_spec (prepareEvaluatorTo expr) targets h
  exact ⟨jacs, by simp only [evaluateWithJacobians, hjacs, evaluate]⟩

/-- Witness of C7: the sum `a + c` with the targets `a`, `b`. -/
theorem value_preservation_witness :
    ∃ jacs, evaluateWithJacobians (Expr.binary 500 .Sum leafA leafC)
        [⟨Vec3, leafA⟩, ⟨Vec3, leafB⟩]
      = some (evaluate (Expr.binary 500 .Sum leafA leafC), jacs) :=
  value_preservation exampleLibrary (Expr.binary 500 .Sum leafA leafC)
    [⟨Vec3, leafA⟩, ⟨Vec3, leafB⟩]
    (by
      intro t ht
      simp only [List.mem_cons, List.mem_singleton, List.not_mem_nil, or_false] at ht
      rcases ht with rfl | rfl
      · exact ⟨_, rfl⟩
      · exact ⟨_, rfl⟩)

/-- C8, the multi-target driver agrees with the single-target driver and preserves order:
for every expression and targets `t1..tN` each of which has a Jacobian evaluator,
`evaluateWithJacobians` returns `(value, J1, ..., JN)` with as many Jacobians as targets and
`Ji = evaluateJacobian(expr, ti)` at every position `i`. -/
theorem multi_target_agrees [Field K] (lib : Library K) {D : Ty} (expr : Expr lib D)
    (targets : List (Target lib))
    (h : ∀ t ∈ targets, ∃ j,
      JacobianEvaluator.construct t.1 (prepareEvaluatorTo expr) (getWrtTarget t.2) = some j) :
    ∃ value jacs, evaluateWithJacobians expr targets = some (value, jacs) ∧
      jacs.length = targets.length ∧
      List.Forall₂ (fun (t : Target lib) (J : JacobianOut lib D) =>
        (evaluateJacobian expr t.2).map (fun M => (⟨t.1, M⟩ : JacobianOut lib D)) = some J)
        targets jacs := by
  obtain ⟨jacs, hjacs, hall⟩ :=
    evaluateOneJacobianPack_spec (prepareEvaluatorTo expr) targets h
  exact ⟨evaluate expr, jacs, by simp only [evaluateWithJacobians, hjacs, evaluate],
    hall.length_eq.symm, hall⟩

/-- Witness of C8: the sum `a + c` with the targets `c`, `a`, `b`. -/
theorem multi_target_agrees_witness :
    ∃ value jacs, evaluateWithJacobians (Expr.binary 500 .Sum leafA leafC)
        [⟨Vec3, leafC⟩, ⟨Vec3, leafA⟩, ⟨Vec3, leafB⟩] = some (value, jacs) ∧
      jacs.length = 3 ∧
      List.Forall₂ (fun (t : Target exampleLibrary)
          (J : JacobianOut exampleLibrary (.binary .Sum Vec3 Vec3)) =>
        (evaluateJacobian (Expr.binary 500 .Sum leafA leafC) t.2).map
          (fun M => (⟨t.1, M⟩ : JacobianOut exampleLibrary (.binary .Sum Vec3 Vec3))) = some J)
        [⟨Vec3, leafC⟩, ⟨Vec3, leafA⟩, ⟨Vec3, leafB⟩] jacs :=
  multi_target_agrees exampleLibrary (Expr.binary 500 .Sum leafA leafC)
    [⟨Vec3, leafC⟩, ⟨Vec3, leafA⟩, ⟨Vec3, leafB⟩]
    (by
      intro t ht
      simp only [List.mem_cons, List.mem_singleton, List.not_mem_nil, or_false] at ht
      rcases ht with rfl | rfl | rfl
      · exact ⟨_, rfl⟩
      · exact ⟨_, rfl⟩
      · exact ⟨_, rfl⟩)


/-- C9, target not in the tree gives zero: for every expression and target with root
Jacobian evaluator `j_eval`, when the target is stored at no node of the expression (its type
may well be the type of leaves of the expression), `j_eval.jacobian()` is absent and
`jacobian(E, t)` is the zero matrix; in particular `jacobian(a + c, b)` is the 3x3 zero
matrix for 3-vector leaves `a`, `c` stored apart from the 3-vector leaf `b`. -/
theorem target_not_in_tree :
    (∀ (K : Type) [Field K] (lib : Library K) (D T : Ty) (expr : Expr lib D)
        (target : Expr lib T) (j_eval : JacobianEvaluator lib D T),
        JacobianEvaluator.construct T (prepareEvaluatorTo expr) (getWrtTarget target)
          = some j_eval →
        target.addr ∉ expr.addrs →
        j_eval.jacobian = none ∧
        evaluateJacobian expr target = some (0 : jacobian_t lib D T)) ∧
    (∀ (K : Type) [Field K] (ext : External K) (addr a b c : Nat)
        (va vb vc : PlainValue K Vec3), a ≠ b → c ≠ b →
        evaluateJacobian
          (Expr.binary addr .Sum (Expr.leaf a (.vector 3) va : Expr (vectorLibrary ext) Vec3)
            (Expr.leaf c (.vector 3) vc : Expr (vectorLibrary ext) Vec3))
          (Expr.leaf b (.vector 3) vb : Expr (vectorLibrary ext) Vec3)
          = some (0 : Matrix (Fin 3) (Fin 3) K)) := by
  have general : ∀ (K : Type) [Field K] (lib : Library K) (D T : Ty) (expr : Expr lib D)
      (target : Expr lib T) (j_eval : JacobianEvaluator lib D T),
      JacobianEvaluator.construct T (prepareEvaluatorTo expr) (getWrtTarget target)
        = some j_eval →
      target.addr ∉ expr.addrs →
      j_eval.jacobian = none ∧
      evaluateJacobian expr target = some (0 : jacobian_t lib D T) := by
    intro K _ lib D T expr target j_eval hj hout
    have hnone : j_eval.jacobian = none :=
      jacobian_none_of_not_mem (prepareEvaluatorTo expr) target
        (by rw [prepareEvaluatorTo_addrs]; exact hout) j_eval hj
    exact ⟨hnone, by simp only [evaluateJacobian, evaluateOneJacobian, hj, hnone]⟩
  refine ⟨general, ?_⟩
  intro K _ ext addr a b c va vb vc hab hcb
  have hL : contains_same_type Vec3 Vec3 = true := by decide
  have hne : Ty.binary .Sum Vec3 Vec3 ≠ Vec3 := by decide
  have hself : ∀ (x : Nat) (vx : PlainValue K Vec3), x ≠ b →
      ∃ j, JacobianEvaluator.construct Vec3
        (prepareEvaluatorTo (Expr.leaf x (.vector 3) vx : Expr (vectorLibrary ext) Vec3))
        (Expr.leaf b (.vector 3) vb : Expr (vectorLibrary ext) Vec3) = some j ∧
        j.jacobian = none := by
    intro x vx hx
    refine ⟨_, construct_self _ _, ?_⟩
    simp [JacobianEvaluator.jacobian, isSame, prepareEvaluatorTo, Evaluator.expr, Expr.addr, hx]
  obtain ⟨jl, hjl, hjln⟩ := hself a va hab
  obtain ⟨jr, hjr, hjrn⟩ := hself c vc hcb
  have hroot : JacobianEvaluator.construct Vec3
      (prepareEvaluatorTo (Expr.binary addr .Sum
        (Expr.leaf a (.vector 3) va : Expr (vectorLibrary ext) Vec3)
        (Expr.leaf c (.vector 3) vc : Expr (vectorLibrary ext) Vec3)))
      (Expr.leaf b (.vector 3) vb : Expr (vectorLibrary ext) Vec3)
      = some (JacobianEvaluator.binaryBoth
          (prepareEvaluatorTo (Expr.binary addr .Sum
            (Expr.leaf a (.vector 3) va : Expr (vectorLibrary ext) Vec3)
            (Expr.leaf c (.vector 3) vc : Expr (vectorLibrary ext) Vec3))) jl jr) := by
    rw [construct_binary_both _ _ hne hL hL]
    simp only [prepareEvaluatorTo, Evaluator.lhs_eval, Evaluator.rhs_eval] at hjl hjr ⊢
    rw [hjl, hjr]
    rfl
  simp only [evaluateJacobian, evaluateOneJacobian, getWrtTarget, hroot,
    JacobianEvaluator.jacobian, hjln, hjrn]

/-- Witness of C9: `a + c` differentiated by the unrelated leaf `b` of the same type. -/
theorem target_not_in_tree_witness :
    (∃ j_eval, JacobianEvaluator.construct Vec3
        (prepareEvaluatorTo (Expr.binary 500 .Sum leafA leafC)) (getWrtTarget leafB)
        = some j_eval) ∧
    leafB.addr ∉ (Expr.binary 500 .Sum leafA leafC).addrs ∧
    evaluateJacobian (Expr.binary 500 .Sum leafA leafC) leafB
      = some (0 : jacobian_t exampleLibrary (.binary .Sum Vec3 Vec3) Vec3) :=
  ⟨⟨_, rfl⟩, by decide,
    (target_not_in_tree.1 ℚ exampleLibrary _ _ (Expr.binary 500 .Sum leafA leafC) leafB _ rfl
      (by decide)).2⟩

/-- Counterexample to C10: for the sum of two 3-vector leaves and a scalar target, neither
operand may contain the target type, and there is no Jacobian evaluator for the node. -/
theorem binary_neither_counterexample :
    contains_same_type Vec3 ScalarLeaf = false ∧
    ¬ ∃ j, JacobianEvaluator.construct ScalarLeaf
        (prepareEvaluatorTo (Expr.binary 500 .Sum leafA leafC)) leafS = some j ∧
      j.jacobian = none := by
  refine ⟨by decide, ?_⟩
  rintro ⟨j, hj, _⟩
  have hnone : JacobianEvaluator.construct ScalarLeaf
      (prepareEvaluatorTo (Expr.binary 500 .Sum leafA leafC)) leafS = none := rfl
  rw [hnone] at hj
  cases hj

/-- C10 as amended: for a binary node neither child of which may contain the target type,
and whose own type is not the target type, no specialisation of the Jacobian evaluator
matches (the leaf rule asks for a leaf, each binary rule for a child that may contain the
target type): there is no evaluator for the node, hence none for either child and no
`jacobian()` result, and the driver is not defined for it. -/
theorem binary_neither_no_evaluator [Field K] (lib : Library K) {tag : BinaryTag} {L R T : Ty}
    (evaluator : Evaluator lib (.binary tag L R)) (target : Expr lib T)
    (hL : contains_same_type L T = false) (hR : contains_same_type R T = false)
    (hne : Ty.binary tag L R ≠ T) :
    (∀ s : Specialization, s.enabled (.binary tag L R) T = false) ∧
    JacobianEvaluator.construct T evaluator target = none ∧
    evaluateOneJacobian evaluator target = none := by
  have hc := construct_binary_neither evaluator target hne hL hR
  refine ⟨?_, hc, by simp only [evaluateOneJacobian, hc]⟩
  intro s
  cases s <;>
    simp [Specialization.enabled, is_leaf_or_scalar, is_unary_expression, hL, hR, hne]

/-- Witness of C10 as amended: the scaling `s * a` and a target that is a 2-vector leaf. -/
theorem binary_neither_no_evaluator_witness :
    (contains_same_type ScalarLeaf (.leaf (.vector 2)) = false ∧
      contains_same_type Vec3 (.leaf (.vector 2)) = false ∧
      Ty.binary .Scale ScalarLeaf Vec3 ≠ .leaf (.vector 2)) ∧
    evaluateOneJacobian (prepareEvaluatorTo (Expr.binary 700 .Scale leafS leafA))
        (Expr.leaf 800 (.vector 2) ![1, 1] : Expr exampleLibrary (.leaf (.vector 2))) = none :=
  ⟨⟨by decide, by decide, by decide⟩,
    (binary_neither_no_evaluator exampleLibrary
      (prepareEvaluatorTo (Expr.binary 700 .Scale leafS leafA))
      (Expr.leaf 800 (.vector 2) ![1, 1] : Expr exampleLibrary (.leaf (.vector 2)))
      (by decide) (by decide) (by decide)).2.2⟩

/-! ## Expressions over leaves -/

/-- The identity object of a square shape is the identity matrix. -/
theorem identity_t_eq_one [Field K] (n : Nat) :
    (identity_t n n : Matrix (Fin n) (Fin n) K) = 1 := by
  ext i j
  simp [identity_t, Matrix.one_apply, Fin.ext_iff]

theorem prepareEvaluatorTo_expr {lib : Library K} {D : Ty} (e : Expr lib D) :
    (prepareEvaluatorTo e).expr = e := by
  cases e <;> rfl

/-- The evaluator of a leaf for a target of its own type: the Self specialisation, a present
identity exactly when the addresses agree. -/
theorem leaf_self_jacobian [Field K] (lib : Library K) (a t : Nat) (l : LeafTy)
    (va vt : lib.Val (.leaf l)) :
    ∃ j, JacobianEvaluator.construct (.leaf l) (Evaluator.leaf (Expr.leaf a l va) va)
        (Expr.leaf t l vt) = some j ∧
      j.jacobian = if a = t then some 1 else none := by
  refine ⟨_, construct_self _ _, ?_⟩
  by_cases h : a = t <;>
    simp [JacobianEvaluator.jacobian, isSame, Evaluator.expr, Expr.addr, h]

/-- The driver on a unary node over a leaf, for a target of the type of the leaf. -/
theorem evaluateJacobian_unary_leaf [Field K] (lib : Library K) (addr : Nat) (tag : UnaryTag)
    (a t : Nat) (l : LeafTy) (va vt : lib.Val (.leaf l)) :
    evaluateJacobian (Expr.unary addr tag (Expr.leaf a l va)) (Expr.leaf t l vt)
      = if a = t then
          some (lib.jacobianImpl tag (.leaf l)
            (evaluate (Expr.unary addr tag (Expr.leaf a l va))) va)
        else some 0 := by
  have hne : Ty.unary tag (.leaf l) ≠ Ty.leaf l := fun hh => Ty.noConfusion hh
  obtain ⟨j, hj, hjac⟩ := leaf_self_jacobian lib a t l va vt
  simp only [evaluateJacobian, evaluateOneJacobian, getWrtTarget]
  rw [construct_unary_ne _ _ hne]
  simp only [prepareEvaluatorTo, Evaluator.rhs_eval₁, hj, Option.map_some',
    JacobianEvaluator.jacobian, hjac]
  by_cases h : a = t
  · simp only [h, if_true, Matrix.mul_one]
    rfl
  · simp only [h, if_false]

/-- The driver on a binary node over two leaves of the type of the target. -/
theorem evaluateJacobian_binary_both [Field K] (lib : Library K) (addr : Nat)
    (tag : BinaryTag) (a b t : Nat) (l : LeafTy) (va vb vt : lib.Val (.leaf l)) :
    evaluateJacobian (Expr.binary addr tag (Expr.leaf a l va) (Expr.leaf b l vb))
        (Expr.leaf t l vt)
      = some (
          (if a = t then
            lib.leftJacobianImpl tag (.leaf l) (.leaf l)
              (evaluate (Expr.binary addr tag (Expr.leaf a l va) (Expr.leaf b l vb))) va vb
           else 0) +
          (if b = t then
            lib.rightJacobianImpl tag (.leaf l) (.leaf l)
              (evaluate (Expr.binary addr tag (Expr.leaf a l va) (Expr.leaf b l vb))) va vb
           else 0)) := by
  have hne : Ty.binary tag (.leaf l) (.leaf l) ≠ Ty.leaf l := fun hh => Ty.noConfusion hh
  have hL : contains_same_type (.leaf l) (.leaf l) = true := by simp [contains_same_type]
  obtain ⟨jl, hjl, hjlac⟩ := leaf_self_jacobian lib a t l va vt
  obtain ⟨jr, hjr, hjrac⟩ := leaf_self_jacobian lib b t l vb vt
  simp only [evaluateJacobian, evaluateOneJacobian, getWrtTarget]
  rw [construct_binary_both _ _ hne hL hL]
  simp only [prepareEvaluatorTo, Evaluator.lhs_eval, Evaluator.rhs_eval, hjl, hjr,
    Option.some_bind, Option.map_some', JacobianEvaluator.jacobian, hjlac, hjrac]
  by_cases ha : a = t <;> by_cases hb : b = t <;>
    simp only [ha, hb, if_true, if_false, add_zero, zero_add, Matrix.mul_one] <;> rfl

/-- The driver on a binary node over two leaves of different types, for a target of the type
of the left leaf. -/
theorem evaluateJacobian_binary_lhs [Field K] (lib : Library K) (addr : Nat)
    (tag : BinaryTag) (a b t : Nat) (l r : LeafTy) (hlr : r ≠ l) (va : lib.Val (.leaf l))
    (vb : lib.Val (.leaf r)) (vt : lib.Val (.leaf l)) :
    evaluateJacobian (Expr.binary addr tag (Expr.leaf a l va) (Expr.leaf b r vb))
        (Expr.leaf t l vt)
      = if a = t then
          some (lib.leftJacobianImpl tag (.leaf l) (.leaf r)
            (evaluate (Expr.binary addr tag (Expr.leaf a l va) (Expr.leaf b r vb))) va vb)
        else some 0 := by
  have hne : Ty.binary tag (.leaf l) (.leaf r) ≠ Ty.leaf l := fun hh => Ty.noConfusion hh
  have hL : contains_same_type (.leaf l) (.leaf l) = true := by simp [contains_same_type]
  have hR : contains_same_type (.leaf r) (.leaf l) = false := by
    simp [contains_same_type, hlr]
  obtain ⟨jl, hjl, hjlac⟩ := leaf_self_jacobian lib a t l va vt
  simp only [evaluateJacobian, evaluateOneJacobian, getWrtTarget]
  rw [construct_binary_lhs _ _ hne hL hR]
  simp only [prepareEvaluatorTo, Evaluator.lhs_eval, hjl, Option.map_some',
    JacobianEvaluator.jacobian, hjlac]
  by_cases h : a = t
  · simp only [h, if_true, Matrix.mul_one]
    rfl
  · simp only [h, if_false]

/-- The driver on a binary node over two leaves of different types, for a target of the type
of the right leaf. -/
theorem evaluateJacobian_binary_rhs [Field K] (lib : Library K) (addr : Nat)
    (tag : BinaryTag) (a b t : Nat) (l r : LeafTy) (hlr : l ≠ r) (va : lib.Val (.leaf l))
    (vb : lib.Val (.leaf r)) (vt : lib.Val (.leaf r)) :
    evaluateJacobian (Expr.binary addr tag (Expr.leaf a l va) (Expr.leaf b r vb))
        (Expr.leaf t r vt)
      = if b = t then
          some (lib.rightJacobianImpl tag (.leaf l) (.leaf r)
            (evaluate (Expr.binary addr tag (Expr.leaf a l va) (Expr.leaf b r vb))) va vb)
        else some 0 := by
  have hne : Ty.binary tag (.leaf l) (.leaf r) ≠ Ty.leaf r := fun hh => Ty.noConfusion hh
  have hL : contains_same_type (.leaf l) (.leaf r) = false := by
    simp [contains_same_type, hlr]
  have hR : contains_same_type (.leaf r) (.leaf r) = true := by simp [contains_same_type]
  obtain ⟨jr, hjr, hjrac⟩ := leaf_self_jacobian lib b t r vb vt
  simp only [evaluateJacobian, evaluateOneJacobian, getWrtTarget]
  rw [construct_binary_rhs _ _ hne hL hR]
  simp only [prepareEvaluatorTo, Evaluator.rhs_eval, hjr, Option.map_some',
    JacobianEvaluator.jacobian, hjrac]
  by_cases h : b = t
  · simp only [h, if_true, Matrix.mul_one]
    rfl
  · simp only [h, if_false]

/-- The coefficient of a scalar value. -/
theorem coeff_scalar [Field K] (s : K) : coeff (fun _ : Fin 1 => s) 0 = s := by
  simp [coeff]

/-- C11, sum of two distinct leaves: for all 3-vector leaves `a` and `b` stored apart,
`jacobian(a + b, a) = I3` and `jacobian(a + b, b) = I3`, whatever the values of `a` and `b`
(the local Jacobians of `Sum` are the identity). -/
theorem sum_distinct_leaves [Field K] (ext : External K) (addr a b : Nat)
    (va vb : Fin 3 → K) (hab : a ≠ b) :
    evaluateJacobian
        (Expr.binary addr .Sum (Expr.leaf a (.vector 3) va : Expr (vectorLibrary ext) Vec3)
          (Expr.leaf b (.vector 3) vb : Expr (vectorLibrary ext) Vec3))
        (Expr.leaf a (.vector 3) va : Expr (vectorLibrary ext) Vec3)
      = some (1 : Matrix (Fin 3) (Fin 3) K) ∧
    evaluateJacobian
        (Expr.binary addr .Sum (Expr.leaf a (.vector 3) va : Expr (vectorLibrary ext) Vec3)
          (Expr.leaf b (.vector 3) vb : Expr (vectorLibrary ext) Vec3))
        (Expr.leaf b (.vector 3) vb : Expr (vectorLibrary ext) Vec3)
      = some (1 : Matrix (Fin 3) (Fin 3) K) := by
  constructor
  · rw [evaluateJacobian_binary_both]
    simp only [if_true, if_neg hab.symm, add_zero]
    exact congrArg some (identity_t_eq_one 3)
  · rw [evaluateJacobian_binary_both]
    simp only [if_true, if_neg hab, zero_add]
    exact congrArg some (identity_t_eq_one 3)

/-- Witness of C11: the leaves `a` and `b` of the examples, numerically equal and stored
apart. -/
theorem sum_distinct_leaves_witness :
    (100 : Nat) ≠ 200 ∧
    evaluateJacobian (Expr.binary 500 .Sum leafA leafB) leafA
      = some (1 : Matrix (Fin 3) (Fin 3) ℚ) ∧
    evaluateJacobian (Expr.binary 500 .Sum leafA leafB) leafB
      = some (1 : Matrix (Fin 3) (Fin 3) ℚ) :=
  ⟨by decide, sum_distinct_leaves exampleExternal 500 100 200 ![1, 0, 0] ![1, 0, 0] (by decide)⟩

/-- C12, aliased sum: for every 3-vector leaf `a`, `jacobian(a + a, a)` with both operands
the object of the target is `2·I3`: both children return a present identity and the node adds
`left_local × I` and `right_local × I`. -/
theorem sum_aliased [Field K] (ext : External K) (addr a : Nat) (va : Fin 3 → K) :
    evaluateJacobian
        (Expr.binary addr .Sum (Expr.leaf a (.vector 3) va : Expr (vectorLibrary ext) Vec3)
          (Expr.leaf a (.vector 3) va : Expr (vectorLibrary ext) Vec3))
        (Expr.leaf a (.vector 3) va : Expr (vectorLibrary ext) Vec3)
      = some ((2 : K) • (1 : Matrix (Fin 3) (Fin 3) K)) := by
  rw [evaluateJacobian_binary_both]
  simp only [if_true]
  refine congrArg some ?_
  show (identity_t 3 3 : Matrix (Fin 3) (Fin 3) K) + identity_t 3 3 = (2 : K) • 1
  rw [identity_t_eq_one, two_smul]

/-- C13, left scalar multiplication differentiated by the scalar: for every scalar leaf `s`
and vector leaf `a`, `jacobian(s * a, s)` is the column of the coefficients of `a`, whatever
the value of `s`. -/
theorem scale_wrt_scalar [Field K] (ext : External K) (n addr sa aa : Nat) (s : K)
    (va : Fin n → K) :
    evaluateJacobian
        (Expr.binary addr .Scale
          (Expr.leaf sa .scalar (fun _ => s) : Expr (vectorLibrary ext) ScalarLeaf)
          (Expr.leaf aa (.vector n) va : Expr (vectorLibrary ext) (Vec n)))
        (Expr.leaf sa .scalar (fun _ => s) : Expr (vectorLibrary ext) ScalarLeaf)
      = some (Matrix.of fun (i : Fin n) (_ : Fin 1) => va i) := by
  rw [evaluateJacobian_binary_lhs _ _ _ _ _ _ _ _ (by simp)]
  simp only [if_true]
  rfl

/-- C14, left scalar multiplication differentiated by the vector: for every scalar leaf `s`
and `n`-vector leaf `a`, `jacobian(s * a, a)` is `s·I_n`, whatever the value of `a`. -/
theorem scale_wrt_vector [Field K] (ext : External K) (n addr sa aa : Nat) (s : K)
    (va : Fin n → K) :
    evaluateJacobian
        (Expr.binary addr .Scale
          (Expr.leaf sa .scalar (fun _ => s) : Expr (vectorLibrary ext) ScalarLeaf)
          (Expr.leaf aa (.vector n) va : Expr (vectorLibrary ext) (Vec n)))
        (Expr.leaf aa (.vector n) va : Expr (vectorLibrary ext) (Vec n))
      = some (s • (1 : Matrix (Fin n) (Fin n) K)) := by
  rw [evaluateJacobian_binary_rhs _ _ _ _ _ _ _ _ (by simp)]
  simp only [if_true]
  refine congrArg some ?_
  show (Matrix.of fun (i j : Fin n) => coeff (fun _ : Fin 1 => s) 0 * identity_t n n i j)
    = s • (1 : Matrix (Fin n) (Fin n) K)
  rw [coeff_scalar, identity_t_eq_one]
  ext i j
  simp

/-- Example of C13: `s = 2`, `a = (1, 0, 0)` gives the column `(1, 0, 0)`. -/
theorem scale_wrt_scalar_witness :
    evaluateJacobian (Expr.binary 700 .Scale leafS leafA) leafS = some !![1; 0; 0] :=
  (scale_wrt_scalar exampleExternal 3 700 400 100 2 ![1, 0, 0]).trans
    (congrArg some (by ext i j; fin_cases i <;> fin_cases j <;> rfl))

/-- Example of C14: `s = 2`, `a = (1, 0, 0)` gives `2·I3`. -/
theorem scale_wrt_vector_witness :
    evaluateJacobian (Expr.binary 700 .Scale leafS leafA) leafA
      = some ((2 : ℚ) • (1 : Matrix (Fin 3) (Fin 3) ℚ)) :=
  scale_wrt_vector exampleExternal 3 700 400 100 2 ![1, 0, 0]

/-- C15, squared norm: for every vector leaf `a`, the value of `a.squaredNorm()` is the sum
of the squares of the coefficients of `a`, and `jacobian(a.squaredNorm(), a)` is the row
`2·a`. -/
theorem squaredNorm_jacobian [Field K] (ext : External K) (n addr aa : Nat) (va : Fin n → K) :
    evaluate (Expr.unary addr .SquaredNorm
        (Expr.leaf aa (.vector n) va : Expr (vectorLibrary ext) (Vec n)))
      = (fun _ => ∑ i, va i * va i) ∧
    evaluateJacobian
        (Expr.unary addr .SquaredNorm
          (Expr.leaf aa (.vector n) va : Expr (vectorLibrary ext) (Vec n)))
        (Expr.leaf aa (.vector n) va : Expr (vectorLibrary ext) (Vec n))
      = some (Matrix.of fun (_ : Fin 1) (j : Fin n) => 2 * va j) := by
  refine ⟨rfl, ?_⟩
  rw [evaluateJacobian_unary_leaf]
  simp only [if_true]
  rfl

/-- Example of C15: `a = (1, 2, 3)` has squared norm 14 and gives the row `(2, 4, 6)`. -/
theorem squaredNorm_jacobian_witness :
    evaluate (Expr.unary 600 .SquaredNorm
        (Expr.leaf 100 (.vector 3) ![1, 2, 3] : Expr exampleLibrary Vec3)) = (fun _ => 14) ∧
    evaluateJacobian
        (Expr.unary 600 .SquaredNorm
          (Expr.leaf 100 (.vector 3) ![1, 2, 3] : Expr exampleLibrary Vec3))
        (Expr.leaf 100 (.vector 3) ![1, 2, 3] : Expr exampleLibrary Vec3)
      = some !![2, 4, 6] :=
  ⟨(squaredNorm_jacobian exampleExternal 3 600 100 ![1, 2, 3]).1.trans
      (by funext _; simp [Fin.sum_univ_three]; norm_num),
    (squaredNorm_jacobian exampleExternal 3 600 100 ![1, 2, 3]).2.trans
      (congrArg some (by ext i j; fin_cases i; fin_cases j <;> simp <;> norm_num))⟩

/-- C16, norm: for every vector leaf `a` with non-zero norm, the value of `a.norm()` is the
square root of the sum of the squares of the coefficients, and `jacobian(a.norm(), a)` is the
row `a / ‖a‖`, with `‖a‖` that value, the cached value of the node. -/
theorem norm_jacobian [Field K] (ext : External K) (n addr aa : Nat) (va : Fin n → K)
    (_hnorm : ext.sqrt (∑ i, va i * va i) ≠ 0) :
    evaluate (Expr.unary addr .Norm
        (Expr.leaf aa (.vector n) va : Expr (vectorLibrary ext) (Vec n)))
      = (fun _ => ext.sqrt (∑ i, va i * va i)) ∧
    evaluateJacobian
        (Expr.unary addr .Norm
          (Expr.leaf aa (.vector n) va : Expr (vectorLibrary ext) (Vec n)))
        (Expr.leaf aa (.vector n) va : Expr (vectorLibrary ext) (Vec n))
      = some (Matrix.of fun (_ : Fin 1) (j : Fin n) =>
          va j / ext.sqrt (∑ i, va i * va i)) := by
  refine ⟨rfl, ?_⟩
  rw [evaluateJacobian_unary_leaf]
  simp only [if_true]
  refine congrArg some ?_
  show (Matrix.of fun (_ : Fin 1) (j : Fin n) =>
      va j / coeff (fun _ : Fin 1 => ext.sqrt (∑ i, va i * va i)) 0) = _
  rw [coeff_scalar]

/-- The rational square root of 25. -/
theorem sqrt_twenty_five : Rat.sqrt 25 = 5 := by
  have h : (25 : ℚ) = 5 * 5 := by norm_num
  rw [h, Rat.sqrt_eq]
  norm_num

/-- Witness of C16: `a = (3, 4, 0)` has norm 5 and gives the row `(3/5, 4/5, 0)`. -/
theorem norm_jacobian_witness :
    exampleExternal.sqrt (∑ i, ![(3 : ℚ), 4, 0] i * ![(3 : ℚ), 4, 0] i) ≠ 0 ∧
    evaluateJacobian
        (Expr.unary 600 .Norm
          (Expr.leaf 100 (.vector 3) ![3, 4, 0] : Expr exampleLibrary Vec3))
        (Expr.leaf 100 (.vector 3) ![3, 4, 0] : Expr exampleLibrary Vec3)
      = some !![3 / 5, 4 / 5, 0] := by
  have hs : exampleExternal.sqrt (∑ i, ![(3 : ℚ), 4, 0] i * ![(3 : ℚ), 4, 0] i) = 5 := by
    have : (∑ i, ![(3 : ℚ), 4, 0] i * ![(3 : ℚ), 4, 0] i) = 25 := by
      simp [Fin.sum_univ_three]; norm_num
    rw [this]
    exact sqrt_twenty_five
  refine ⟨by rw [hs]; norm_num, ?_⟩
  refine (norm_jacobian exampleExternal 3 600 100 ![3, 4, 0] (by rw [hs]; norm_num)).2.trans
    (congrArg some ?_)
  rw [hs]
  ext i j
  fin_cases i; fin_cases j <;> simp

/-- C17, scalar division differentiated by the vector: for every `n`-vector leaf `a` and
scalar leaf `s ≠ 0`, `jacobian(a / s, a)` is `(1/s)·I_n`, whatever the value of `a`. -/
theorem scaleDiv_wrt_vector [Field K] (ext : External K) (n addr aa sa : Nat) (s : K)
    (va : Fin n → K) (_hs : s ≠ 0) :
    evaluateJacobian
        (Expr.binary addr .ScaleDiv
          (Expr.leaf aa (.vector n) va : Expr (vectorLibrary ext) (Vec n))
          (Expr.leaf sa .scalar (fun _ => s) : Expr (vectorLibrary ext) ScalarLeaf))
        (Expr.leaf aa (.vector n) va : Expr (vectorLibrary ext) (Vec n))
      = some ((1 / s) • (1 : Matrix (Fin n) (Fin n) K)) := by
  rw [evaluateJacobian_binary_lhs _ _ _ _ _ _ _ _ (by simp)]
  simp only [if_true]
  refine congrArg some ?_
  show (Matrix.of fun (i j : Fin n) => identity_t n n i j / coeff (fun _ : Fin 1 => s) 0)
    = (1 / s) • (1 : Matrix (Fin n) (Fin n) K)
  rw [coeff_scalar, identity_t_eq_one]
  ext i j
  simp [div_eq_inv_mul]

/-- Witness of C17: `a = (2, 4, 6)`, `s = 2` gives `(1/2)·I3`. -/
theorem scaleDiv_wrt_vector_witness :
    (2 : ℚ) ≠ 0 ∧
    evaluateJacobian
        (Expr.binary 900 .ScaleDiv
          (Expr.leaf 100 (.vector 3) ![2, 4, 6] : Expr exampleLibrary Vec3) leafS)
        (Expr.leaf 100 (.vector 3) ![2, 4, 6] : Expr exampleLibrary Vec3)
      = some ((1 / 2 : ℚ) • (1 : Matrix (Fin 3) (Fin 3) ℚ)) :=
  ⟨by norm_num,
    scaleDiv_wrt_vector exampleExternal 3 900 100 400 2 ![2, 4, 6] (by norm_num)⟩

/-- C18, scalar division differentiated by the scalar: for every vector leaf `a` and scalar
leaf `s ≠ 0`, `jacobian(a / s, s)` is the column `−a / s²`. -/
theorem scaleDiv_wrt_scalar [Field K] (ext : External K) (n addr aa sa : Nat) (s : K)
    (va : Fin n → K) (_hs : s ≠ 0) :
    evaluateJacobian
        (Expr.binary addr .ScaleDiv
          (Expr.leaf aa (.vector n) va : Expr (vectorLibrary ext) (Vec n))
          (Expr.leaf sa .scalar (fun _ => s) : Expr (vectorLibrary ext) ScalarLeaf))
        (Expr.leaf sa .scalar (fun _ => s) : Expr (vectorLibrary ext) ScalarLeaf)
      = some (Matrix.of fun (i : Fin n) (_ : Fin 1) => - va i / s ^ 2) := by
  rw [evaluateJacobian_binary_rhs _ _ _ _ _ _ _ _ (by simp)]
  simp only [if_true]
  refine congrArg some ?_
  show (Matrix.of fun (i : Fin n) (_ : Fin 1) =>
      - va i / (coeff (fun _ : Fin 1 => s) 0 * coeff (fun _ : Fin 1 => s) 0)) = _
  rw [coeff_scalar, pow_two]

/-- Witness of C18: `a = (2, 4, 6)`, `s = 2` gives the column `−(1/2, 1, 3/2)`. -/
theorem scaleDiv_wrt_scalar_witness :
    (2 : ℚ) ≠ 0 ∧
    evaluateJacobian
        (Expr.binary 900 .ScaleDiv
          (Expr.leaf 100 (.vector 3) ![2, 4, 6] : Expr exampleLibrary Vec3) leafS)
        leafS
      = some !![-(1 / 2); -1; -(3 / 2)] :=
  ⟨by norm_num,
    (scaleDiv_wrt_scalar exampleExternal 3 900 100 400 2 ![2, 4, 6] (by norm_num)).trans
      (congrArg some (by ext i j; fin_cases i <;> fin_cases j <;> simp <;> norm_num))⟩

/-- C19, self-target at a composite root: for every expression `E` (unary and binary ones
included), the Self specialisation is the only one that matches `(E, E)` and is the one
constructed for any target of the type of `E`; with the target the object of the root it
caches `is_same = true`, has no child evaluators, `jacobian()` is a present identity of the
shape of the root obtained without any local-Jacobian call, and `jacobian(E, E)` is that
identity. -/
theorem self_target_composite [Field K] (lib : Library K) {D : Ty} (expr : Expr lib D) :
    (∀ s : Specialization, s.enabled D D = true ↔ s = Specialization.self) ∧
    (∀ target : Expr lib D,
      JacobianEvaluator.construct D (prepareEvaluatorTo expr) (getWrtTarget target)
        = some (JacobianEvaluator.self (prepareEvaluatorTo expr)
            (decide (expr.addr = target.addr)))) ∧
    JacobianEvaluator.construct D (prepareEvaluatorTo expr) (getWrtTarget expr)
      = some (JacobianEvaluator.self (prepareEvaluatorTo expr) true) ∧
    (JacobianEvaluator.self (prepareEvaluatorTo expr) true).jacobian
      = some (1 : jacobian_t lib D D) ∧
    (JacobianEvaluator.self (prepareEvaluatorTo expr) true).localJacobianCalls = 0 ∧
    evaluateJacobian expr expr = some (1 : jacobian_t lib D D) := by
  have hself : Specialization.self.enabled D D = true := by simp [Specialization.enabled]
  have hany : ∀ target : Expr lib D,
      JacobianEvaluator.construct D (prepareEvaluatorTo expr) (getWrtTarget target)
        = some (JacobianEvaluator.self (prepareEvaluatorTo expr)
            (decide (expr.addr = target.addr))) := by
    intro target
    rw [construct_self]
    simp only [isSame, getWrtTarget, prepareEvaluatorTo_expr]
  have hroot : JacobianEvaluator.construct D (prepareEvaluatorTo expr) (getWrtTarget expr)
      = some (JacobianEvaluator.self (prepareEvaluatorTo expr) true) := by
    rw [hany expr]
    simp
  refine ⟨?_, hany, hroot, rfl, rfl, ?_⟩
  · intro s
    constructor
    · intro hs
      exact Specialization.enabled_unique s Specialization.self D D hs hself
    · intro hs
      rw [hs]
      exact hself
  · simp only [evaluateJacobian, evaluateOneJacobian, hroot]
    rfl

/-- Example of C19: `jacobian(s * a, s * a)` with the target the object of the root is the
3x3 identity. -/
theorem self_target_composite_witness :
    evaluateJacobian (Expr.binary 700 .Scale leafS leafA) (Expr.binary 700 .Scale leafS leafA)
      = some (1 : Matrix (Fin 3) (Fin 3) ℚ) :=
  (self_target_composite exampleLibrary (Expr.binary 700 .Scale leafS leafA)).2.2.2.2.2

/-- C20, empty target list: for every expression, `evaluateWithJacobians` with no target
returns a tuple with the value of the expression and no Jacobian component. -/
theorem empty_targets [Field K] (lib : Library K) {D : Ty} (expr : Expr lib D) :
    evaluateWithJacobians expr [] = some (evaluate expr, []) := by
  rfl

/-! ## The dense reference evaluator and pruning -/

theorem Ty.size_le_of_occurs {T D : Ty} (h : Ty.occurs T D = true) : T.size ≤ D.size := by
  induction D with
  | leaf l =>
      have : Ty.leaf l = T := by simpa [Ty.occurs] using h
      rw [← this]
  | unary tag R ih =>
      simp only [Ty.occurs, Bool.or_eq_true, decide_eq_true_eq] at h
      rcases h with h | h
      · rw [← h]
      · have := ih h
        simp only [Ty.size]
        omega
  | binary tag L R ihL ihR =>
      simp only [Ty.occurs, Bool.or_eq_true, decide_eq_true_eq] at h
      rcases h with (h | h) | h
      · rw [← h]
      · have := ihL h
        simp only [Ty.size]
        omega
      · have := ihR h
        simp only [Ty.size]
        omega

/-- For a leaf type, occurring as a node type is what `contains_same_type` computes. -/
theorem Ty.occurs_leaf (l : LeafTy) (D : Ty) :
    Ty.occurs (.leaf l) D = contains_same_type D (.leaf l) := by
  induction D with
  | leaf l0 => simp [Ty.occurs, contains_same_type]
  | unary tag R ih => simp [Ty.occurs, contains_same_type, ih]
  | binary tag L R ihL ihR => simp [Ty.occurs, contains_same_type, ihL, ihR]

/-- The dense reference Jacobian of a tree no node of which has the type of the target is
zero. -/
theorem denseJacobian_eq_zero [Field K] {lib : Library K} {D T : Ty} (ev : Evaluator lib D)
    (target : Expr lib T) (h : Ty.occurs T D = false) : denseJacobian T ev target = 0 := by
  induction ev with
  | @leaf l e v =>
      have hne : Ty.leaf l ≠ T := by simpa [Ty.occurs] using h
      simp [denseJacobian, hne]
  | @unary tag R e r v ih =>
      simp only [Ty.occurs, Bool.or_eq_false_iff, decide_eq_false_iff_not] at h
      simp [denseJacobian, h.1, Evaluator.rhs_eval₁, ih h.2]
  | @binary tag L R e l r v ihl ihr =>
      simp only [Ty.occurs, Bool.or_eq_false_iff, decide_eq_false_iff_not] at h
      simp [denseJacobian, h.1.1, Evaluator.lhs_eval, Evaluator.rhs_eval, ihl h.1.2, ihr h.2]

/-- The dense reference Jacobian of a tree that may not contain the leaf type of the target
is zero. -/
theorem denseJacobian_eq_zero_of_not_contains [Field K] {lib : Library K} {D : Ty}
    (l : LeafTy) (ev : Evaluator lib D) (target : Expr lib (.leaf l))
    (h : contains_same_type D (.leaf l) = false) : denseJacobian (.leaf l) ev target = 0 :=
  denseJacobian_eq_zero ev target (by rw [Ty.occurs_leaf]; exact h)

/-- The dense reference Jacobian of a tree for a target with more nodes is zero. -/
theorem denseJacobian_eq_zero_of_size [Field K] {lib : Library K} {D T : Ty}
    (ev : Evaluator lib D) (target : Expr lib T) (h : D.size < T.size) :
    denseJacobian T ev target = 0 := by
  apply denseJacobian_eq_zero
  cases hocc : Ty.occurs T D
  · rfl
  · have := Ty.size_le_of_occurs hocc
    omega

/-- At a node of the type of the target the Self evaluator and the dense reference evaluator
agree. -/
theorem self_getD_eq_dense [Field K] {lib : Library K} {D : Ty} (ev : Evaluator lib D)
    (target : Expr lib D) :
    (JacobianEvaluator.self ev (isSame ev.expr target)).jacobian.getD 0
      = denseJacobian D ev target := by
  by_cases hs : ev.expr.addr = target.addr
  · have h1 : (JacobianEvaluator.self ev (isSame ev.expr target)).jacobian.getD 0
        = (1 : jacobian_t lib D D) := by
      simp [JacobianEvaluator.jacobian, isSame, hs]
    rw [h1]
    cases ev <;> simp [denseJacobian, hs, identity_t_eq_one]
  · have h0 : (JacobianEvaluator.self ev (isSame ev.expr target)).jacobian.getD 0
        = (0 : jacobian_t lib D D) := by
      simp [JacobianEvaluator.jacobian, isSame, hs]
    rw [h0]
    cases ev with
    | @leaf l e v => simp [denseJacobian, hs]
    | @unary tag R e r v =>
        have hz := denseJacobian_eq_zero_of_size r target (by simp [Ty.size])
        simp [denseJacobian, hs, Evaluator.rhs_eval₁, hz]
    | @binary tag L R e l r v =>
        have hl := denseJacobian_eq_zero_of_size l target (by simp [Ty.size]; omega)
        have hr := denseJacobian_eq_zero_of_size r target (by simp [Ty.size]; omega)
        simp [denseJacobian, hs, Evaluator.lhs_eval, Evaluator.rhs_eval, hl, hr]

/-- Refinement: whenever a Jacobian evaluator is selected, its result with absent read as
zero is the dense reference Jacobian. -/
theorem jacobian_getD_eq_dense [Field K] {lib : Library K} {D T : Ty} (ev : Evaluator lib D)
    (target : Expr lib T) :
    ∀ j, JacobianEvaluator.construct T ev target = some j →
      j.jacobian.getD 0 = denseJacobian T ev target := by
  induction ev with
  | @leaf l e v =>
      intro j hj
      by_cases h : Ty.leaf l = T
      · subst h
        rw [construct_self] at hj
        cases hj
        exact self_getD_eq_dense _ _
      · rw [construct_leaf_ne _ _ h] at hj
        cases hj
        simp [JacobianEvaluator.jacobian, denseJacobian, h]
  | @unary tag R e r v ih =>
      intro j hj
      by_cases h : Ty.unary tag R = T
      · subst h
        rw [construct_self] at hj
        cases hj
        exact self_getD_eq_dense _ _
      · rw [construct_unary_ne _ _ h] at hj
        simp only [Evaluator.rhs_eval₁] at hj
        cases hc : JacobianEvaluator.construct T r target with
        | none => simp [hc] at hj
        | some jr =>
            simp only [hc, Option.map_some', Option.some.injEq] at hj
            subst hj
            have hd : denseJacobian T (Evaluator.unary e r v) target
                = lib.jacobianImpl tag R v r.value * denseJacobian T r target := by
              simp [denseJacobian, h, Evaluator.rhs_eval₁, Evaluator.value]
            rw [hd, ← ih jr hc]
            cases hjr : jr.jacobian <;>
              simp [JacobianEvaluator.jacobian, hjr, Evaluator.rhs_eval₁, Evaluator.value]
  | @binary tag L R e l r v ihl ihr =>
      intro j hj
      by_cases h : Ty.binary tag L R = T
      · subst h
        rw [construct_self] at hj
        cases hj
        exact self_getD_eq_dense _ _
      · cases hL : contains_same_type L T <;> cases hR : contains_same_type R T
        · rw [construct_binary_neither _ _ h hL hR] at hj
          cases hj
        · rw [construct_binary_rhs _ _ h hL hR] at hj
          simp only [Evaluator.rhs_eval] at hj
          obtain ⟨lf, hlf⟩ := contains_same_type_leaf hR
          subst hlf
          have hz := denseJacobian_eq_zero_of_not_contains lf l target hL
          cases hc : JacobianEvaluator.construct (.leaf lf) r target with
          | none => simp [hc] at hj
          | some jr =>
              simp only [hc, Option.map_some', Option.some.injEq] at hj
              subst hj
              have hd : denseJacobian (.leaf lf) (Evaluator.binary e l r v) target
                  = lib.rightJacobianImpl tag L R v l.value r.value *
                      denseJacobian (.leaf lf) r target := by
                simp [denseJacobian, h, Evaluator.lhs_eval, Evaluator.rhs_eval,
                  Evaluator.value, hz]
              rw [hd, ← ihr jr hc]
              cases hjr : jr.jacobian <;>
                simp [JacobianEvaluator.jacobian, hjr, Evaluator.lhs_eval,
                  Evaluator.rhs_eval, Evaluator.value]
        · rw [construct_binary_lhs _ _ h hL hR] at hj
          simp only [Evaluator.lhs_eval] at hj
          obtain ⟨lf, hlf⟩ := contains_same_type_leaf hL
          subst hlf
          have hz := denseJacobian_eq_zero_of_not_contains lf r target hR
          cases hc : JacobianEvaluator.construct (.leaf lf) l target with
          | none => simp [hc] at hj
          | some jl =>
              simp only [hc, Option.map_some', Option.some.injEq] at hj
              subst hj
              have hd : denseJacobian (.leaf lf) (Evaluator.binary e l r v) target
                  = lib.leftJacobianImpl tag L R v l.value r.value *
                      denseJacobian (.leaf lf) l target := by
                simp [denseJacobian, h, Evaluator.lhs_eval, Evaluator.rhs_eval,
                  Evaluator.value, hz]
              rw [hd, ← ihl jl hc]
              cases hjl : jl.jacobian <;>
                simp [JacobianEvaluator.jacobian, hjl, Evaluator.lhs_eval,
                  Evaluator.rhs_eval, Evaluator.value]
        · rw [construct_binary_both _ _ h hL hR] at hj
          simp only [Evaluator.lhs_eval, Evaluator.rhs_eval] at hj
          cases hcl : JacobianEvaluator.construct T l target with
          | none => simp [hcl] at hj
          | some jl =>
              cases hcr : JacobianEvaluator.construct T r target with
              | none => simp [hcl, hcr] at hj
              | some jr =>
                  simp only [hcl, hcr, Option.some_bind, Option.map_some',
                    Option.some.injEq] at hj
                  subst hj
                  have hd : denseJacobian T (Evaluator.binary e l r v) target
                      = lib.leftJacobianImpl tag L R v l.value r.value *
                          denseJacobian T l target +
                        lib.rightJacobianImpl tag L R v l.value r.value *
                          denseJacobian T r target := by
                    simp [denseJacobian, h, Evaluator.lhs_eval, Evaluator.rhs_eval,
                      Evaluator.value]
                  rw [hd, ← ihl jl hcl, ← ihr jr hcr]
                  cases hjl : jl.jacobian <;> cases hjr : jr.jacobian <;>
                    simp [JacobianEvaluator.jacobian, hjl, hjr, Evaluator.lhs_eval,
                      Evaluator.rhs_eval, Evaluator.value]

/-- Counterexample to C21: for `S = -(s * a)` and the target `s * a`, the object that is
the operand of `S`, `contains(S, T)` is false by the recursive definition, yet the Jacobian
evaluator of `S` returns a present Jacobian and evaluates the local Jacobian of `Minus`. -/
theorem pruning_counterexample :
    contains_same_type (.unary .Minus (.binary .Scale ScalarLeaf Vec3))
      (.binary .Scale ScalarLeaf Vec3) = false ∧
    ∃ j, JacobianEvaluator.construct (.binary .Scale ScalarLeaf Vec3)
        (prepareEvaluatorTo (Expr.unary 900 .Minus (Expr.binary 700 .Scale leafS leafA)))
        (Expr.binary 700 .Scale leafS leafA) = some j ∧
      j.jacobian ≠ none ∧ j.localJacobianCalls = 1 := by
  refine ⟨by decide, _, rfl, ?_, ?_⟩
  · simp [JacobianEvaluator.jacobian, prepareEvaluatorTo, Evaluator.rhs_eval₁, isSame,
      Evaluator.expr, Expr.addr]
  · simp [JacobianEvaluator.localJacobianCalls, JacobianEvaluator.jacobian,
      prepareEvaluatorTo, Evaluator.rhs_eval₁, isSame, Evaluator.expr, Expr.addr]

/-- C21 as amended: with `contains` defined recursively (leaf: `L == T`; unary:
`contains(R, T)`; binary: `contains(L, T) ∨ contains(R, T)`), for every subtree `S` and
target whose type `T` is a leaf type with `contains(S, T)` false, every Jacobian evaluator
selected for `S` returns absent and evaluates no operator local Jacobian inside `S`, and the
dense Jacobian of `S` is zero; consequently the contribution `local × J_S` that the lhs-only
and rhs-only binary node shapes skip is zero. -/
theorem pruning_sound [Field K] (lib : Library K) {D : Ty} (l : LeafTy)
    (evaluator : Evaluator lib D) (target : Expr lib (.leaf l))
    (hc : contains_same_type D (.leaf l) = false) :
    (∀ j, JacobianEvaluator.construct (.leaf l) evaluator target = some j →
      j.jacobian = none ∧ j.localJacobianCalls = 0) ∧
    denseJacobian (.leaf l) evaluator target = 0 ∧
    (∀ (m : Nat) (local_jacobian : Matrix (Fin m) (Fin (lib.TangentSize D)) K),
      local_jacobian * denseJacobian (.leaf l) evaluator target = 0) := by
  have hz := denseJacobian_eq_zero_of_not_contains l evaluator target hc
  refine ⟨?_, hz, fun m M => by rw [hz, Matrix.mul_zero]⟩
  induction evaluator with
  | @leaf l0 e v =>
      intro j hj
      have hne : Ty.leaf l0 ≠ Ty.leaf l := by simpa [contains_same_type] using hc
      rw [construct_leaf_ne _ _ hne] at hj
      cases hj
      exact ⟨rfl, rfl⟩
  | @unary tag R e r v ih =>
      intro j hj
      have hne : Ty.unary tag R ≠ Ty.leaf l := fun hh => Ty.noConfusion hh
      have hcR : contains_same_type R (.leaf l) = false := by
        simpa [contains_same_type] using hc
      rw [construct_unary_ne _ _ hne] at hj
      simp only [Evaluator.rhs_eval₁] at hj
      cases hcons : JacobianEvaluator.construct (.leaf l) r target with
      | none => simp [hcons] at hj
      | some jr =>
          simp only [hcons, Option.map_some', Option.some.injEq] at hj
          subst hj
          obtain ⟨h1, h2⟩ :=
            ih hcR (denseJacobian_eq_zero_of_not_contains l r target hcR) jr hcons
          simp [JacobianEvaluator.jacobian, JacobianEvaluator.localJacobianCalls, h1, h2]
  | @binary tag L R e le re v ihl ihr =>
      intro j hj
      have hne : Ty.binary tag L R ≠ Ty.leaf l := fun hh => Ty.noConfusion hh
      simp only [contains_same_type, Bool.or_eq_false_iff] at hc
      rw [construct_binary_neither _ _ hne hc.1 hc.2] at hj
      cases hj

/-- Witness of C21 as amended: the squared norm of a 3-vector leaf and a scalar target. -/
theorem pruning_sound_witness :
    contains_same_type (.unary .SquaredNorm Vec3) ScalarLeaf = false ∧
    denseJacobian ScalarLeaf (prepareEvaluatorTo (Expr.unary 600 .SquaredNorm leafA)) leafS
      = 0 :=
  ⟨by decide,
    (pruning_sound exampleLibrary .scalar
      (prepareEvaluatorTo (Expr.unary 600 .SquaredNorm leafA)) leafS (by decide)).2.1⟩

/-- C22, absent is indistinguishable from zero: for every expression and target for which a
Jacobian evaluator is selected, the driver result `jacobian(E, t)` (optional-valued, pruned,
absent materialised as zero at the root only) is the result of the dense reference
evaluator. -/
theorem absent_is_zero [Field K] (lib : Library K) {D T : Ty} (expr : Expr lib D)
    (target : Expr lib T) (j_eval : JacobianEvaluator lib D T)
    (hj : JacobianEvaluator.construct T (prepareEvaluatorTo expr) (getWrtTarget target)
      = some j_eval) :
    evaluateJacobian expr target
      = some (denseJacobian T (prepareEvaluatorTo expr) target) := by
  have h := jacobian_getD_eq_dense (prepareEvaluatorTo expr) (getWrtTarget target) j_eval hj
  simp only [getWrtTarget] at h
  rw [← h]
  simp only [evaluateJacobian, evaluateOneJacobian, hj]
  cases j_eval.jacobian <;> rfl

/-- Witness of C22: `s * a` differentiated by `a`, where the scalar operand is pruned. -/
theorem absent_is_zero_witness :
    (∃ j_eval, JacobianEvaluator.construct Vec3
        (prepareEvaluatorTo (Expr.binary 700 .Scale leafS leafA)) (getWrtTarget leafA)
        = some j_eval) ∧
    evaluateJacobian (Expr.binary 700 .Scale leafS leafA) leafA
      = some (denseJacobian Vec3 (prepareEvaluatorTo (Expr.binary 700 .Scale leafS leafA))
          leafA) :=
  ⟨⟨_, rfl⟩, absent_is_zero exampleLibrary (Expr.binary 700 .Scale leafS leafA) leafA _ rfl⟩

/-- C23, left and right scalar multiplication agree: for every scalar leaf `s` and vector
leaf `a`, the value of `s * a` (`Scale`) is the value of `a * s` (`ScaleR`),
`jacobian(s * a, s)` and `jacobian(a * s, s)` are both the column `a`, and
`jacobian(s * a, a)` and `jacobian(a * s, a)` are both `s·I`. -/
theorem scale_left_right_agree [Field K] (ext : External K) (n addr₁ addr₂ sa aa : Nat)
    (s : K) (va : Fin n → K) :
    (evaluate (Expr.binary addr₁ .Scale
        (Expr.leaf sa .scalar (fun _ => s) : Expr (vectorLibrary ext) ScalarLeaf)
        (Expr.leaf aa (.vector n) va : Expr (vectorLibrary ext) (Vec n))) : Fin n → K)
      = evaluate (Expr.binary addr₂ .ScaleR
        (Expr.leaf aa (.vector n) va : Expr (vectorLibrary ext) (Vec n))
        (Expr.leaf sa .scalar (fun _ => s) : Expr (vectorLibrary ext) ScalarLeaf)) ∧
    (evaluateJacobian
        (Expr.binary addr₁ .Scale
          (Expr.leaf sa .scalar (fun _ => s) : Expr (vectorLibrary ext) ScalarLeaf)
          (Expr.leaf aa (.vector n) va : Expr (vectorLibrary ext) (Vec n)))
        (Expr.leaf sa .scalar (fun _ => s) : Expr (vectorLibrary ext) ScalarLeaf)
      = some (Matrix.of fun (i : Fin n) (_ : Fin 1) => va i) ∧
     evaluateJacobian
        (Expr.binary addr₂ .ScaleR
          (Expr.leaf aa (.vector n) va : Expr (vectorLibrary ext) (Vec n))
          (Expr.leaf sa .scalar (fun _ => s) : Expr (vectorLibrary ext) ScalarLeaf))
        (Expr.leaf sa .scalar (fun _ => s) : Expr (vectorLibrary ext) ScalarLeaf)
      = some (Matrix.of fun (i : Fin n) (_ : Fin 1) => va i)) ∧
    (evaluateJacobian
        (Expr.binary addr₁ .Scale
          (Expr.leaf sa .scalar (fun _ => s) : Expr (vectorLibrary ext) ScalarLeaf)
          (Expr.leaf aa (.vector n) va : Expr (vectorLibrary ext) (Vec n)))
        (Expr.leaf aa (.vector n) va : Expr (vectorLibrary ext) (Vec n))
      = some (s • (1 : Matrix (Fin n) (Fin n) K)) ∧
     evaluateJacobian
        (Expr.binary addr₂ .ScaleR
          (Expr.leaf aa (.vector n) va : Expr (vectorLibrary ext) (Vec n))
          (Expr.leaf sa .scalar (fun _ => s) : Expr (vectorLibrary ext) ScalarLeaf))
        (Expr.leaf aa (.vector n) va : Expr (vectorLibrary ext) (Vec n))
      = some (s • (1 : Matrix (Fin n) (Fin n) K))) := by
  have hsI : ∀ M : Matrix (Fin n) (Fin n) K,
      M = (Matrix.of fun (i j : Fin n) => coeff (fun _ : Fin 1 => s) 0 * identity_t n n i j) →
      M = s • (1 : Matrix (Fin n) (Fin n) K) := by
    intro M hM
    rw [hM, coeff_scalar, identity_t_eq_one]
    ext i j
    simp
  refine ⟨?_, ⟨?_, ?_⟩, ⟨?_, ?_⟩⟩
  · funext i
    show coeff (fun _ : Fin 1 => s) 0 * va i = va i * coeff (fun _ : Fin 1 => s) 0
    rw [mul_comm]
  · rw [evaluateJacobian_binary_lhs _ _ _ _ _ _ _ _ (by simp)]
    simp only [if_true]
    rfl
  · rw [evaluateJacobian_binary_rhs _ _ _ _ _ _ _ _ (by simp)]
    simp only [if_true]
    rfl
  · rw [evaluateJacobian_binary_rhs _ _ _ _ _ _ _ _ (by simp)]
    simp only [if_true]
    exact congrArg some (hsI _ rfl)
  · rw [evaluateJacobian_binary_lhs _ _ _ _ _ _ _ _ (by simp)]
    simp only [if_true]
    exact congrArg some (hsI _ rfl)

/-- Example of C23: `s = 2`, `a = (1, 0, 0)`; both products have the value `(2, 0, 0)`. -/
theorem scale_left_right_agree_witness :
    (evaluate (Expr.binary 700 .Scale leafS leafA) : Fin 3 → ℚ)
      = evaluate (Expr.binary 750 .ScaleR leafA leafS) ∧
    (evaluate (Expr.binary 700 .Scale leafS leafA) : Fin 3 → ℚ) = ![2, 0, 0] :=
  ⟨(scale_left_right_agree exampleExternal 3 700 750 400 100 2 ![1, 0, 0]).1,
    by funext i; fin_cases i <;> simp [evaluate, prepareOutput, prepareEvaluatorTo,
      Evaluator.value, leafS, leafA, exampleLibrary, vectorLibrary, evalImpl₂, coeff,
      TangentSize]⟩

end wave
